import Mathlib

/-!
Shallow embedding of the ATC build scheduler (`scheduler` package):
`Scheduler.scheduleAndResumePendingBuild`, `Scheduler.BuildLatestInputs` and
`Scheduler.cloneBuildPrep`.

External collaborators (store, scanner, plan factory, engine) are modelled by
an `Oracle` giving the result of each outgoing call; the scheduler functions
are translated statement by statement from the Go source and return the trace
of outgoing calls (each `Event` records the call's arguments together with the
result the oracle returned for it) alongside the Go function's return value.
-/

namespace Scheduler

/-- Opaque error values returned by collaborators (`error` in Go). -/
abbrev Err := Nat

/-- Opaque execution plan (`atc.Plan`). -/
abbrev Plan := Nat

/-- Opaque version index (`*algorithm.VersionsDB`); the scheduler only passes
it around, so identity is all we model. -/
abbrev VersionsDB := Nat

/-- Opaque engine-side build handle (`engine.Build`); Go's nil handle is
modelled as `Option.none` at use sites. -/
abbrev EngineBuild := Nat

/-- Opaque resource configurations (`atc.ResourceConfigs`); passed through to
the plan factory unchanged. -/
abbrev ResourceConfigs := Nat

/-- `db.BuildPreparationStatus`: exactly the three enumerated values. -/
inductive BuildPreparationStatus
  | unknown
  | blocking
  | notBlocking
deriving DecidableEq, Repr

/-- `db.Status` for builds. -/
inductive BuildStatus
  | pending
  | scheduled
  | started
  | succeeded
  | failed
  | errored
  | aborted
deriving DecidableEq, Repr

/-- `db.BuildInput`: a resolved input binding committed to a build.  Only the
name takes part in the scheduler's own logic (the trigger filter); the rest of
the binding is opaque. -/
structure BuildInput where
  name : String
  version : Nat
deriving DecidableEq, Repr

/-- `config.JobInput`: one declared input of a job (name, resource, trigger
flag). -/
structure JobInput where
  name : String
  resource : String
  trigger : Bool
deriving DecidableEq, Repr

/-- `atc.JobConfig`.  Modelled from the spec: the job config "declares a name,
an ordered list of input declarations"; the parts the scheduler never reads
(outputs, plan template) are omitted. -/
structure JobConfig where
  name : String
  inputs : List JobInput
deriving DecidableEq, Repr

/-- `config.JobInputs(job)`.  Modelled from the spec: extracts the job's
ordered input declarations (the `config` package is not part of the source
under review). -/
def JobInputs (job : JobConfig) : List JobInput := job.inputs

/-- `db.Build`: only the ID is read by the scheduler. -/
structure Build where
  id : Nat
deriving DecidableEq, Repr

/-- A Go `map[string]db.BuildPreparationStatus` value, as an association list
with unique keys (a real Go map never holds a key twice). -/
abbrev InputsMap := List (String × BuildPreparationStatus)

/-- Go map assignment `m[k] = v`: replace the binding of `k` if present,
otherwise add one. -/
def mapSet (m : InputsMap) (k : String) (v : BuildPreparationStatus) : InputsMap :=
  match m with
  | [] => [(k, v)]
  | (k', v') :: rest => if k' = k then (k, v) :: rest else (k', v') :: mapSet rest k v

/-- Go map lookup `m[k]` (as an `Option`; the scheduler itself never reads the
map, this is used only to state properties of the persisted snapshots). -/
def mapGet (m : InputsMap) (k : String) : Option BuildPreparationStatus :=
  match m with
  | [] => none
  | (k', v') :: rest => if k' = k then some v' else mapGet rest k

/-- Keys of a map value are pairwise distinct (always true of a Go map). -/
def KeysNodup (m : InputsMap) : Prop := (m.map Prod.fst).Nodup

instance (m : InputsMap) : Decidable (KeysNodup m) := by
  unfold KeysNodup; infer_instance

/-- `db.BuildPreparation`. -/
structure BuildPreparation where
  buildID : Nat
  pausedPipeline : BuildPreparationStatus
  pausedJob : BuildPreparationStatus
  maxRunningBuilds : BuildPreparationStatus
  inputs : InputsMap
  inputsSatisfied : BuildPreparationStatus
deriving DecidableEq, Repr

/-- The copy loop of `cloneBuildPrep`: `for key, value := range buildPrep.Inputs
\x7b clone.Inputs[key] = value \x7d` starting from an empty map. -/
def copyInputs (m : InputsMap) : InputsMap :=
  m.foldl (fun clone kv => mapSet clone kv.1 kv.2) []

/-- `Scheduler.cloneBuildPrep`: a preparation record with the same scalar
fields and a freshly built copy of the `Inputs` map. -/
def cloneBuildPrep (buildPrep : BuildPreparation) : BuildPreparation :=
  { buildID := buildPrep.buildID
    pausedPipeline := buildPrep.pausedPipeline
    pausedJob := buildPrep.pausedJob
    maxRunningBuilds := buildPrep.maxRunningBuilds
    inputs := copyInputs buildPrep.inputs
    inputsSatisfied := buildPrep.inputsSatisfied }

/-- One outgoing call of the scheduler, recording its arguments and the result
the collaborator returned for it (plus the two purely local markers
`logBuilding` and `resume` for the engine hand-off tail). -/
inductive Event
  | leaseBuildScheduling (buildID : Nat) (ttlSeconds : Nat) (err : Option Err) (acquired : Bool)
  | leaseBreak
  | scheduleBuild (buildID : Nat) (err : Option Err) (scheduled : Bool)
  | getBuildPreparation (buildID : Nat) (err : Option Err) (found : Bool)
  | updateBuildPreparation (buildPrep : BuildPreparation) (err : Option Err)
  | scan (resource : String) (err : Option Err)
  | errorBuild (buildID : Nat) (cause : Err) (err : Option Err)
  | finishBuild (buildID : Nat) (status : BuildStatus) (err : Option Err)
  | loadVersionsDB (err : Option Err)
  | getLatestInputVersions (job : String) (err : Option Err) (found : Bool) (inputs : List BuildInput)
  | useInputsForBuild (buildID : Nat) (inputs : List BuildInput) (err : Option Err)
  | factoryCreate (job : String) (inputs : List BuildInput) (err : Option Err)
  | engineCreateBuild (buildID : Nat) (err : Option Err) (handle : Option EngineBuild)
  | logBuilding
  | resume (handle : EngineBuild)
  | getJobBuildForInputs (job : String) (inputs : List BuildInput) (err : Option Err) (found : Bool)
  | createJobBuildForCandidateInputs (job : String) (err : Option Err) (created : Bool) (buildID : Nat)
deriving DecidableEq, Repr

/-- Results of the collaborators' calls, one field per call site.  Calls that
the source makes repeatedly (`UpdateBuildPreparation`, `Scanner.Scan`) are
indexed by the number of calls of that kind made so far in the attempt. -/
structure Oracle where
  lease : Option Err × Bool
  schedule : Option Err × Bool
  getPrep : Option Err × Bool × BuildPreparation
  updatePrep : Nat → Option Err
  scanResult : Nat → Option Err
  loadVersions : Option Err × VersionsDB
  getLatest : Option Err × Bool × List BuildInput
  useInputs : Option Err
  errorBuildResult : Option Err
  finishBuildResult : Option Err
  factory : Option Err × Plan
  engine : Option Err × Option EngineBuild
  blGetLatest : Option Err × Bool × List BuildInput
  getJobBuild : Option Err × Bool × Build
  createForCandidate : Option Err × Build × Bool

/-- The in-place loop `for _, input := range buildInputs \x7b
buildPrep.Inputs[input.Name] = st \x7d`. -/
def setStatusAll (m : InputsMap) (inputs : List JobInput) (st : BuildPreparationStatus) : InputsMap :=
  inputs.foldl (fun acc input => mapSet acc input.name st) m

/-- The per-input scan loop of the nil-version-index branch
(`scheduleAndResumePendingBuild`, lines 241-276 of the source): for each
declared input in order, clone the preparation, mark the input blocking,
persist, scan the input's resource (on failure `ErrorBuild` and exit), clone
again, mark the input not-blocking, persist.  Returns the trace of the loop
and, on completion, the current preparation together with the index of the
next `UpdateBuildPreparation` call. -/
def scanLoop (o : Oracle) (buildID : Nat) :
    List JobInput → BuildPreparation → Nat → Nat → List Event × Option (BuildPreparation × Nat)
  | [], buildPrep, updIdx, _ => ([], some (buildPrep, updIdx))
  | input :: rest, buildPrep, updIdx, scanIdx =>
    let c1 := cloneBuildPrep buildPrep
    let prepB : BuildPreparation := { c1 with inputs := mapSet c1.inputs input.name .blocking }
    match o.updatePrep updIdx with
    | some e => ([.updateBuildPreparation prepB (some e)], none)
    | none =>
      match o.scanResult scanIdx with
      | some e =>
        ([.updateBuildPreparation prepB none, .scan input.resource (some e),
          .errorBuild buildID e o.errorBuildResult], none)
      | none =>
        let c2 := cloneBuildPrep prepB
        let prepN : BuildPreparation := { c2 with inputs := mapSet c2.inputs input.name .notBlocking }
        match o.updatePrep (updIdx + 1) with
        | some e =>
          ([.updateBuildPreparation prepB none, .scan input.resource none,
            .updateBuildPreparation prepN (some e)], none)
        | none =>
          let next := scanLoop o buildID rest prepN (updIdx + 2) (scanIdx + 1)
          (.updateBuildPreparation prepB none :: .scan input.resource none ::
            .updateBuildPreparation prepN none :: next.1, next.2)

/-- Step I of the scheduling procedure (lines 228-300): discover input
versions.  With a nil version index: mark all declared inputs unknown, set
`InputsSatisfied` blocking, persist, run the scan loop, then load a fresh
version index.  With a provided index: mark all declared inputs not-blocking,
set `InputsSatisfied` blocking, persist.  On success returns the current
preparation, the version index to resolve against, and the next update
index. -/
def discoverInputs (o : Oracle) (buildID : Nat) (versions : Option VersionsDB)
    (buildInputs : List JobInput) (buildPrep : BuildPreparation) :
    List Event × Option (BuildPreparation × VersionsDB × Nat) :=
  match versions with
  | none =>
    let prep1 : BuildPreparation := { buildPrep with
      inputs := setStatusAll buildPrep.inputs buildInputs .unknown
      inputsSatisfied := .blocking }
    match o.updatePrep 0 with
    | some e => ([.updateBuildPreparation prep1 (some e)], none)
    | none =>
      match scanLoop o buildID buildInputs prep1 1 0 with
      | (evs, none) => (.updateBuildPreparation prep1 none :: evs, none)
      | (evs, some (prep2, updIdx)) =>
        match o.loadVersions with
        | (some e, _) =>
          (.updateBuildPreparation prep1 none :: (evs ++ [.loadVersionsDB (some e)]), none)
        | (none, vdb) =>
          (.updateBuildPreparation prep1 none :: (evs ++ [.loadVersionsDB none]),
            some (prep2, vdb, updIdx))
  | some vdb =>
    let prep1 : BuildPreparation := { buildPrep with
      inputs := setStatusAll buildPrep.inputs buildInputs .notBlocking
      inputsSatisfied := .blocking }
    match o.updatePrep 0 with
    | some e => ([.updateBuildPreparation prep1 (some e)], none)
    | none => ([.updateBuildPreparation prep1 none], some (prep1, vdb, 1))

/-- Steps R, C, F, E of the scheduling procedure (lines 302-347): resolve the
latest input versions, flip `InputsSatisfied` to not-blocking and persist,
commit the inputs with `UseInputsForBuild`, build the plan (on failure
`FinishBuild(errored)`), hand off to the engine, and launch `Resume` when the
returned handle is non-nil. -/
def resolveAndDispatch (o : Oracle) (build : Build) (job : JobConfig)
    (buildPrep : BuildPreparation) (updIdx : Nat) : List Event × Option EngineBuild :=
  match o.getLatest with
  | (some e, found, ins) => ([.getLatestInputVersions job.name (some e) found ins], none)
  | (none, false, ins) => ([.getLatestInputVersions job.name none false ins], none)
  | (none, true, inputs) =>
    let prep2 : BuildPreparation := { buildPrep with inputsSatisfied := .notBlocking }
    match o.updatePrep updIdx with
    | some e =>
      ([.getLatestInputVersions job.name none true inputs,
        .updateBuildPreparation prep2 (some e)], none)
    | none =>
      match o.useInputs with
      | some e =>
        ([.getLatestInputVersions job.name none true inputs,
          .updateBuildPreparation prep2 none,
          .useInputsForBuild build.id inputs (some e)], none)
      | none =>
        match o.factory with
        | (some e, _) =>
          ([.getLatestInputVersions job.name none true inputs,
            .updateBuildPreparation prep2 none,
            .useInputsForBuild build.id inputs none,
            .factoryCreate job.name inputs (some e),
            .finishBuild build.id .errored o.finishBuildResult], none)
        | (none, _) =>
          match o.engine with
          | (some e, handle) =>
            ([.getLatestInputVersions job.name none true inputs,
              .updateBuildPreparation prep2 none,
              .useInputsForBuild build.id inputs none,
              .factoryCreate job.name inputs none,
              .engineCreateBuild build.id (some e) handle], none)
          | (none, none) =>
            ([.getLatestInputVersions job.name none true inputs,
              .updateBuildPreparation prep2 none,
              .useInputsForBuild build.id inputs none,
              .factoryCreate job.name inputs none,
              .engineCreateBuild build.id none none], none)
          | (none, some handle) =>
            ([.getLatestInputVersions job.name none true inputs,
              .updateBuildPreparation prep2 none,
              .useInputsForBuild build.id inputs none,
              .factoryCreate job.name inputs none,
              .engineCreateBuild build.id none (some handle),
              .logBuilding, .resume handle], some handle)

/-- The body of the scheduling procedure after the lease is acquired (lines
203-347): schedule the build, fetch the preparation record, discover inputs,
then resolve and dispatch. -/
def afterLease (o : Oracle) (versions : Option VersionsDB) (build : Build)
    (job : JobConfig) : List Event × Option EngineBuild :=
  match o.schedule with
  | (some e, scheduled) => ([.scheduleBuild build.id (some e) scheduled], none)
  | (none, false) => ([.scheduleBuild build.id none false], none)
  | (none, true) =>
    match o.getPrep with
    | (some e, found, _) =>
      ([.scheduleBuild build.id none true, .getBuildPreparation build.id (some e) found], none)
    | (none, false, _) =>
      ([.scheduleBuild build.id none true, .getBuildPreparation build.id none false], none)
    | (none, true, buildPrep) =>
      let buildInputs := JobInputs job
      match discoverInputs o build.id versions buildInputs buildPrep with
      | (evs, none) =>
        (.scheduleBuild build.id none true :: .getBuildPreparation build.id none true :: evs, none)
      | (evs, some (prep, _, updIdx)) =>
        let next := resolveAndDispatch o build job prep updIdx
        (.scheduleBuild build.id none true :: .getBuildPreparation build.id none true ::
          (evs ++ next.1), next.2)

/-- `Scheduler.scheduleAndResumePendingBuild` (lines 190-348): acquire the
scheduling lease with a 10-second TTL (exit silently on error or when not
acquired), defer the lease release to every later exit path, and run the
attempt body.  Returns the trace of outgoing calls and the engine build
handle (`none` models Go's nil return). -/
def scheduleAndResumePendingBuild (o : Oracle) (versions : Option VersionsDB)
    (build : Build) (job : JobConfig) : List Event × Option EngineBuild :=
  match o.lease with
  | (some e, acquired) => ([.leaseBuildScheduling build.id 10 (some e) acquired], none)
  | (none, false) => ([.leaseBuildScheduling build.id 10 none false], none)
  | (none, true) =>
    let body := afterLease o versions build job
    (.leaseBuildScheduling build.id 10 none true :: (body.1 ++ [.leaseBreak]), body.2)

/-- The trigger filter of `BuildLatestInputs` (lines 89-100): keep the latest
input versions whose (first) matching job-input declaration has the trigger
flag set. -/
def checkedInputs (jobInputs : List JobInput) (latestInputs : List BuildInput) : List BuildInput :=
  latestInputs.filter fun input =>
    match jobInputs.find? (fun ji => ji.name == input.name) with
    | some ji => ji.trigger
    | none => false

/-- `Scheduler.BuildLatestInputs` (lines 68-142): resolve the latest input
versions, filter to the triggered subset, skip if a build already exists for
those inputs, create a candidate build (skip when another replica already
created one), and run the scheduling procedure synchronously.  Returns the
trace and the Go function's error result. -/
def BuildLatestInputs (o : Oracle) (versions : VersionsDB) (job : JobConfig) :
    List Event × Option Err :=
  let inputs := JobInputs job
  if inputs.isEmpty then ([], none)
  else
    match o.blGetLatest with
    | (some e, found, ins) => ([.getLatestInputVersions job.name (some e) found ins], some e)
    | (none, false, ins) => ([.getLatestInputVersions job.name none false ins], none)
    | (none, true, latestInputs) =>
      let checkInputs := checkedInputs inputs latestInputs
      if checkInputs.isEmpty then
        ([.getLatestInputVersions job.name none true latestInputs], none)
      else
        match o.getJobBuild with
        | (some e, found, _) =>
          ([.getLatestInputVersions job.name none true latestInputs,
            .getJobBuildForInputs job.name checkInputs (some e) found], some e)
        | (none, true, _) =>
          ([.getLatestInputVersions job.name none true latestInputs,
            .getJobBuildForInputs job.name checkInputs none true], none)
        | (none, false, _) =>
          match o.createForCandidate with
          | (some e, b, created) =>
            ([.getLatestInputVersions job.name none true latestInputs,
              .getJobBuildForInputs job.name checkInputs none false,
              .createJobBuildForCandidateInputs job.name (some e) created b.id], some e)
          | (none, b, false) =>
            ([.getLatestInputVersions job.name none true latestInputs,
              .getJobBuildForInputs job.name checkInputs none false,
              .createJobBuildForCandidateInputs job.name none false b.id], none)
          | (none, b, true) =>
            let next := scheduleAndResumePendingBuild o (some versions) b job
            ([.getLatestInputVersions job.name none true latestInputs,
              .getJobBuildForInputs job.name checkInputs none false,
              .createJobBuildForCandidateInputs job.name none true b.id] ++ next.1, none)

/-!
Reference semantics for the preparation's `Inputs` map.  In Go a map value is
a reference to a shared container; `cloneBuildPrep` exists precisely to break
that sharing.  To state the aliasing behaviour we render the same source
function over an explicit heap of map containers: a record holds the index of
its container, assignment mutates the container in place, and the clone
allocates a fresh container filled by the same copy loop (`copyInputs`).
-/

/-- The heap of live map containers; a map reference is an index into it. -/
abbrev Heap := List InputsMap

/-- Read the container a reference points to. -/
def derefInputs (h : Heap) (r : Nat) : InputsMap := h.getD r []

/-- `db.BuildPreparation` with the `Inputs` field kept as a map reference. -/
structure BuildPreparationRef where
  buildID : Nat
  pausedPipeline : BuildPreparationStatus
  pausedJob : BuildPreparationStatus
  maxRunningBuilds : BuildPreparationStatus
  inputsRef : Nat
  inputsSatisfied : BuildPreparationStatus
deriving DecidableEq, Repr

/-- Go map assignment `m[k] = v` through a reference: mutate the container in
place. -/
def mapAssignRef (h : Heap) (r : Nat) (k : String) (v : BuildPreparationStatus) : Heap :=
  h.set r (mapSet (derefInputs h r) k v)

/-- `Scheduler.cloneBuildPrep` under reference semantics: same scalar fields,
and `Inputs` set to a freshly allocated container filled by the copy loop. -/
def cloneBuildPrepRef (h : Heap) (buildPrep : BuildPreparationRef) :
    Heap × BuildPreparationRef :=
  (h ++ [copyInputs (derefInputs h buildPrep.inputsRef)],
    { buildPrep with inputsRef := h.length })

/-!  Concrete fixtures used by the witness theorems (moved). -/

def prep0 : BuildPreparation :=
  { buildID := 7, pausedPipeline := .notBlocking, pausedJob := .notBlocking,
    maxRunningBuilds := .notBlocking, inputs := [("a", .unknown)], inputsSatisfied := .unknown }

def jobA : JobConfig :=
  { name := "job", inputs := [{ name := "a", resource := "res-a", trigger := true }] }

def buildB : Build := { id := 7 }

def resolvedA : List BuildInput := [{ name := "a", version := 1 }]

def oHappy : Oracle :=
  { lease := (none, true), schedule := (none, true), getPrep := (none, true, prep0),
    updatePrep := fun _ => none, scanResult := fun _ => none, loadVersions := (none, 42),
    getLatest := (none, true, resolvedA), useInputs := none, errorBuildResult := none,
    finishBuildResult := none, factory := (none, 5), engine := (none, some 9),
    blGetLatest := (none, true, resolvedA), getJobBuild := (none, false, { id := 0 }),
    createForCandidate := (none, buildB, true) }

def oFactoryFail : Oracle := { oHappy with factory := (some 3, 0) }

def oScanFail : Oracle := { oHappy with scanResult := fun _ => some 2 }

def oLeaseFail : Oracle := { oHappy with lease := (some 4, false) }

def oEngineNil : Oracle := { oHappy with engine := (none, none) }

def oNoCreate : Oracle := { oHappy with createForCandidate := (none, buildB, false) }

def oCommitFail : Oracle :=
  { oHappy with updatePrep := fun k => if k = 1 then some 6 else none }

/-!  Classifiers over events, used to state which calls a trace contains. -/

def isScanEv : Event → Bool
  | .scan _ _ => true
  | _ => false

def isErrorBuildEv : Event → Bool
  | .errorBuild _ _ _ => true
  | _ => false

def isUpdateEv : Event → Bool
  | .updateBuildPreparation _ _ => true
  | _ => false

def isLoadVersionsEv : Event → Bool
  | .loadVersionsDB _ => true
  | _ => false

def isUseInputsEv : Event → Bool
  | .useInputsForBuild _ _ _ => true
  | _ => false

def isFactoryEv : Event → Bool
  | .factoryCreate _ _ _ => true
  | _ => false

def isEngineEv : Event → Bool
  | .engineCreateBuild _ _ _ => true
  | _ => false

def isResumeEv : Event → Bool
  | .resume _ => true
  | _ => false

def isCreateForCandidateEv : Event → Bool
  | .createJobBuildForCandidateInputs _ _ _ _ => true
  | _ => false

/-- Events that can be emitted by the input-discovery phase (step I). -/
def discoveryEv (ev : Event) : Bool :=
  isUpdateEv ev || isScanEv ev || isErrorBuildEv ev || isLoadVersionsEv ev

/-- Events emitted only by the resolve/commit/factory/engine tail (steps R, C,
F, E), excluding preparation updates (which discovery also emits). -/
def strictDispatchEv : Event → Bool
  | .getLatestInputVersions _ _ _ _ => true
  | .useInputsForBuild _ _ _ => true
  | .factoryCreate _ _ _ => true
  | .finishBuild _ _ _ => true
  | .engineCreateBuild _ _ _ => true
  | .logBuilding => true
  | .resume _ => true
  | _ => false

/-- The statuses persisted for input `x` by the `UpdateBuildPreparation` calls
of a trace, in call order. -/
def persistedFor (x : String) (evs : List Event) : List BuildPreparationStatus :=
  evs.filterMap fun ev =>
    match ev with
    | .updateBuildPreparation p _ => mapGet p.inputs x
    | _ => none

/-- Position of a status along the chain unknown, blocking, not-blocking. -/
def statusRank : BuildPreparationStatus → Nat
  | .unknown => 0
  | .blocking => 1
  | .notBlocking => 2

/-- Order along the chain unknown, blocking, not-blocking. -/
def statusLe (a b : BuildPreparationStatus) : Prop := statusRank a ≤ statusRank b

instance : DecidableRel statusLe := fun a b => by unfold statusLe; infer_instance

/-- Collapse consecutive repeats of a status sequence. -/
def collapseRepeats : List BuildPreparationStatus → List BuildPreparationStatus
  | [] => []
  | [a] => [a]
  | a :: b :: rest =>
    if a = b then collapseRepeats (b :: rest) else a :: collapseRepeats (b :: rest)

/-- The resource of a scan event, if the event is one. -/
def scanResource : Event → Option String
  | .scan r _ => some r
  | _ => none

/-!  Basic lemmas about the map model. -/

theorem mapGet_mapSet (m : InputsMap) (k : String) (v : BuildPreparationStatus) (x : String) :
    mapGet (mapSet m k v) x = if x = k then some v else mapGet m x := by
  induction m with
  | nil =>
    simp only [mapSet, mapGet]
    by_cases hx : x = k
    · subst hx; simp
    · rw [if_neg hx, if_neg (fun h : k = x => hx h.symm)]
  | cons kv rest ih =>
    obtain ⟨k', v'⟩ := kv
    simp only [mapSet]
    by_cases hk : k' = k
    · subst hk
      simp only [if_pos rfl, mapGet]
      by_cases hx : k' = x
      · subst hx; simp
      · rw [if_neg hx, if_neg hx, if_neg (fun h : x = k' => hx h.symm)]
    · rw [if_neg hk]
      simp only [mapGet]
      by_cases hx : k' = x
      · subst hx
        simp [fun h : k' = k => hk h]
      · rw [if_neg hx, if_neg hx, ih]

theorem mapGet_eq_none_iff (m : InputsMap) (x : String) :
    mapGet m x = none ↔ x ∉ m.map Prod.fst := by
  induction m with
  | nil => simp [mapGet]
  | cons kv rest ih =>
    obtain ⟨k', v'⟩ := kv
    simp only [mapGet, List.map_cons, List.mem_cons, not_or]
    by_cases hx : k' = x
    · subst hx
      simp
    · rw [if_neg hx, ih]
      exact ⟨fun h => ⟨fun he => hx he.symm, h⟩, fun h => h.2⟩

theorem mem_keys_mapSet {m : InputsMap} {k x : String} {v : BuildPreparationStatus}
    (hx : x ∈ (mapSet m k v).map Prod.fst) : x = k ∨ x ∈ m.map Prod.fst := by
  by_cases hxk : x = k
  · exact Or.inl hxk
  · right
    by_contra hmem
    have hnone : mapGet (mapSet m k v) x = none := by
      rw [mapGet_mapSet, if_neg hxk]
      exact (mapGet_eq_none_iff m x).mpr hmem
    exact ((mapGet_eq_none_iff _ x).mp hnone) hx

theorem keysNodup_mapSet {m : InputsMap} (k : String) (v : BuildPreparationStatus)
    (hm : KeysNodup m) : KeysNodup (mapSet m k v) := by
  induction m with
  | nil => simp [KeysNodup, mapSet]
  | cons kv rest ih =>
    obtain ⟨k', v'⟩ := kv
    simp only [KeysNodup, List.map_cons, List.nodup_cons] at hm
    by_cases hk : k' = k
    · subst hk
      simpa [KeysNodup, mapSet] using hm
    · have hrest := ih hm.2
      simp only [mapSet, if_neg hk, KeysNodup, List.map_cons, List.nodup_cons]
      refine ⟨fun hmem => ?_, hrest⟩
      rcases mem_keys_mapSet hmem with h | h
      · exact hk h
      · exact hm.1 h

theorem mapSet_of_not_mem {m : InputsMap} {k : String} (v : BuildPreparationStatus)
    (hk : k ∉ m.map Prod.fst) : mapSet m k v = m ++ [(k, v)] := by
  induction m with
  | nil => simp [mapSet]
  | cons kv rest ih =>
    obtain ⟨k', v'⟩ := kv
    simp only [List.map_cons, List.mem_cons, not_or] at hk
    have : ¬ k' = k := fun h => hk.1 h.symm
    simp [mapSet, this, ih hk.2]

theorem copyInputs_aux (m acc : InputsMap) (hm : KeysNodup m)
    (hdisj : ∀ x ∈ m.map Prod.fst, x ∉ acc.map Prod.fst) :
    m.foldl (fun clone kv => mapSet clone kv.1 kv.2) acc = acc ++ m := by
  induction m generalizing acc with
  | nil => simp
  | cons kv rest ih =>
    obtain ⟨k, v⟩ := kv
    simp only [KeysNodup, List.map_cons, List.nodup_cons] at hm
    have hkacc : k ∉ acc.map Prod.fst := hdisj k (by simp)
    simp only [List.foldl_cons]
    rw [mapSet_of_not_mem v hkacc]
    rw [ih (acc ++ [(k, v)]) hm.2 ?_]
    · simp
    · intro x hx
      simp only [List.map_append, List.mem_append, List.map_cons, List.map_nil,
        List.mem_singleton, not_or]
      exact ⟨hdisj x (by simp [hx]), fun h => hm.1 (h ▸ hx)⟩

/-- With distinct keys (always true of a real Go map) the copy loop rebuilds
the same association list. -/
theorem copyInputs_eq_self {m : InputsMap} (hm : KeysNodup m) : copyInputs m = m := by
  simpa using copyInputs_aux m [] hm (by simp)

/-- With distinct keys the clone is the identity on the preparation value. -/
theorem cloneBuildPrep_eq_self {p : BuildPreparation} (hp : KeysNodup p.inputs) :
    cloneBuildPrep p = p := by
  cases p
  simp only [cloneBuildPrep]
  simp_all [copyInputs_eq_self]

theorem keysNodup_setStatusAll {m : InputsMap} (inputs : List JobInput)
    (st : BuildPreparationStatus) (hm : KeysNodup m) :
    KeysNodup (setStatusAll m inputs st) := by
  induction inputs generalizing m with
  | nil => exact hm
  | cons i rest ih =>
    simp only [setStatusAll, List.foldl_cons]
    exact ih (keysNodup_mapSet i.name st hm)

theorem mapGet_setStatusAll (m : InputsMap) (inputs : List JobInput)
    (st : BuildPreparationStatus) (x : String) :
    mapGet (setStatusAll m inputs st) x =
      if x ∈ inputs.map JobInput.name then some st else mapGet m x := by
  induction inputs generalizing m with
  | nil => simp [setStatusAll]
  | cons i rest ih =>
    simp only [setStatusAll, List.foldl_cons] at ih ⊢
    rw [ih (mapSet m i.name st)]
    by_cases hx : x ∈ rest.map JobInput.name
    · simp [hx]
    · by_cases hxi : x = i.name
      · simp [hx, hxi, mapGet_mapSet]
      · simp [hx, hxi, mapGet_mapSet]

/-!  List helper lemmas for the heap model. -/

theorem getD_append_length (l : List InputsMap) (x : InputsMap) :
    (l ++ [x]).getD l.length [] = x := by
  induction l with
  | nil => rfl
  | cons y l ih => simp only [List.cons_append, List.length_cons, List.getD_cons_succ, ih]

theorem getD_append_of_lt (l l' : List InputsMap) {r : Nat} (hr : r < l.length) :
    (l ++ l').getD r [] = l.getD r [] := by
  induction l generalizing r with
  | nil => cases hr
  | cons y l ih =>
    cases r with
    | zero => rfl
    | succ r => simpa using ih (Nat.lt_of_succ_lt_succ hr)

theorem getD_set_ne (l : List InputsMap) {r r' : Nat} (hne : r ≠ r') (y : InputsMap) :
    (l.set r' y).getD r [] = l.getD r [] := by
  induction l generalizing r r' with
  | nil => simp
  | cons z l ih =>
    cases r' with
    | zero =>
      cases r with
      | zero => exact absurd rfl hne
      | succ r => rfl
    | succ r' =>
      cases r with
      | zero => rfl
      | succ r => simpa using ih (fun h => hne (by simp [h]))


/-- C9: `cloneBuildPrep` returns a preparation record whose `BuildID`,
`PausedPipeline`, `PausedJob`, `MaxRunningBuilds`, `InputsSatisfied` and
input-status mapping equal those of its argument; under reference semantics
the clone's `Inputs` container is freshly allocated, so assigning into the
clone's map leaves the original record's map unchanged. -/
theorem cloneBuildPrep_spec (p : BuildPreparation) (h : Heap) (pr : BuildPreparationRef)
    (hp : KeysNodup p.inputs) (hpr : pr.inputsRef < h.length)
    (hh : KeysNodup (derefInputs h pr.inputsRef)) :
    ((cloneBuildPrep p).buildID = p.buildID ∧
      (cloneBuildPrep p).pausedPipeline = p.pausedPipeline ∧
      (cloneBuildPrep p).pausedJob = p.pausedJob ∧
      (cloneBuildPrep p).maxRunningBuilds = p.maxRunningBuilds ∧
      (cloneBuildPrep p).inputsSatisfied = p.inputsSatisfied ∧
      ∀ k, mapGet (cloneBuildPrep p).inputs k = mapGet p.inputs k) ∧
    ((cloneBuildPrepRef h pr).2.inputsRef ≠ pr.inputsRef ∧
      (∀ k,
        mapGet (derefInputs (cloneBuildPrepRef h pr).1 (cloneBuildPrepRef h pr).2.inputsRef) k =
          mapGet (derefInputs h pr.inputsRef) k) ∧
      ∀ k v,
        derefInputs
            (mapAssignRef (cloneBuildPrepRef h pr).1 (cloneBuildPrepRef h pr).2.inputsRef k v)
            pr.inputsRef =
          derefInputs h pr.inputsRef) := by
  have hclone : cloneBuildPrep p = p := cloneBuildPrep_eq_self hp
  have hfreshRef : (cloneBuildPrepRef h pr).2.inputsRef = h.length := rfl
  have hfreshMap :
      derefInputs (cloneBuildPrepRef h pr).1 (cloneBuildPrepRef h pr).2.inputsRef =
        copyInputs (derefInputs h pr.inputsRef) := by
    simp only [cloneBuildPrepRef, derefInputs]
    exact getD_append_length h (copyInputs (derefInputs h pr.inputsRef))
  have horig :
      derefInputs (cloneBuildPrepRef h pr).1 pr.inputsRef = derefInputs h pr.inputsRef := by
    simp only [cloneBuildPrepRef, derefInputs]
    exact getD_append_of_lt h _ hpr
  refine ⟨⟨by rw [hclone], by rw [hclone], by rw [hclone], by rw [hclone], by rw [hclone],
      fun k => by rw [hclone]⟩, ?_, ?_, ?_⟩
  · rw [hfreshRef]
    exact (Nat.ne_of_lt hpr).symm
  · intro k
    rw [hfreshMap, copyInputs_eq_self hh]
  · intro k v
    simp only [mapAssignRef, derefInputs] at horig ⊢
    rw [getD_set_ne _ (fun he => Nat.ne_of_lt hpr (he.trans hfreshRef)) _]
    exact horig

/-- Witness for C9 at a concrete preparation record and heap. -/
theorem cloneBuildPrep_spec_witness :
    (KeysNodup prep0.inputs ∧ (0 : Nat) < ([[("a", BuildPreparationStatus.blocking)]] : Heap).length ∧
      KeysNodup (derefInputs [[("a", BuildPreparationStatus.blocking)]] 0)) ∧
    ((cloneBuildPrep prep0).buildID = prep0.buildID ∧
      (cloneBuildPrep prep0).pausedPipeline = prep0.pausedPipeline ∧
      (cloneBuildPrep prep0).pausedJob = prep0.pausedJob ∧
      (cloneBuildPrep prep0).maxRunningBuilds = prep0.maxRunningBuilds ∧
      (cloneBuildPrep prep0).inputsSatisfied = prep0.inputsSatisfied ∧
      ∀ k, mapGet (cloneBuildPrep prep0).inputs k = mapGet prep0.inputs k) ∧
    ((cloneBuildPrepRef [[("a", BuildPreparationStatus.blocking)]]
          { buildID := 7, pausedPipeline := .notBlocking, pausedJob := .notBlocking,
            maxRunningBuilds := .notBlocking, inputsRef := 0,
            inputsSatisfied := .unknown }).2.inputsRef ≠ 0 ∧
      (∀ k,
        mapGet (derefInputs (cloneBuildPrepRef [[("a", BuildPreparationStatus.blocking)]]
              { buildID := 7, pausedPipeline := .notBlocking, pausedJob := .notBlocking,
                maxRunningBuilds := .notBlocking, inputsRef := 0,
                inputsSatisfied := .unknown }).1
            (cloneBuildPrepRef [[("a", BuildPreparationStatus.blocking)]]
              { buildID := 7, pausedPipeline := .notBlocking, pausedJob := .notBlocking,
                maxRunningBuilds := .notBlocking, inputsRef := 0,
                inputsSatisfied := .unknown }).2.inputsRef) k =
          mapGet (derefInputs [[("a", BuildPreparationStatus.blocking)]] 0) k) ∧
      ∀ k v,
        derefInputs
            (mapAssignRef (cloneBuildPrepRef [[("a", BuildPreparationStatus.blocking)]]
                { buildID := 7, pausedPipeline := .notBlocking, pausedJob := .notBlocking,
                  maxRunningBuilds := .notBlocking, inputsRef := 0,
                  inputsSatisfied := .unknown }).1
              (cloneBuildPrepRef [[("a", BuildPreparationStatus.blocking)]]
                { buildID := 7, pausedPipeline := .notBlocking, pausedJob := .notBlocking,
                  maxRunningBuilds := .notBlocking, inputsRef := 0,
                  inputsSatisfied := .unknown }).2.inputsRef k v)
            0 =
          derefInputs [[("a", BuildPreparationStatus.blocking)]] 0) :=
  ⟨⟨by decide, by decide, by decide⟩,
    cloneBuildPrep_spec prep0 [[("a", BuildPreparationStatus.blocking)]]
      { buildID := 7, pausedPipeline := .notBlocking, pausedJob := .notBlocking,
        maxRunningBuilds := .notBlocking, inputsRef := 0, inputsSatisfied := .unknown }
      (by decide) (by decide) (by decide)⟩

/-!  Which events each phase of the procedure can emit. -/

theorem discoveryEv_not_strict {ev : Event} (h : discoveryEv ev = true) :
    strictDispatchEv ev = false := by
  cases ev <;> simp_all [discoveryEv, strictDispatchEv, isUpdateEv, isScanEv,
    isErrorBuildEv, isLoadVersionsEv]

theorem scanLoop_events_discovery (o : Oracle) (buildID : Nat) (inputs : List JobInput)
    (prep : BuildPreparation) (updIdx scanIdx : Nat) :
    ∀ ev ∈ (scanLoop o buildID inputs prep updIdx scanIdx).1, discoveryEv ev = true := by
  induction inputs generalizing prep updIdx scanIdx with
  | nil =>
    intro ev hev
    simp [scanLoop] at hev
  | cons input rest ih =>
    intro ev hev
    simp only [scanLoop] at hev
    cases hupd : o.updatePrep updIdx with
    | some e =>
      rw [hupd] at hev
      simp only [List.mem_singleton] at hev
      subst hev; rfl
    | none =>
      rw [hupd] at hev
      cases hscan : o.scanResult scanIdx with
      | some e =>
        rw [hscan] at hev
        fin_cases hev <;> rfl
      | none =>
        rw [hscan] at hev
        cases hupd2 : o.updatePrep (updIdx + 1) with
        | some e =>
          rw [hupd2] at hev
          fin_cases hev <;> rfl
        | none =>
          rw [hupd2] at hev
          simp only [List.mem_cons] at hev
          rcases hev with rfl | rfl | rfl | hev
          · rfl
          · rfl
          · rfl
          · exact ih _ _ _ ev hev

theorem scanLoop_success_no_errorBuild (o : Oracle) (buildID : Nat) (inputs : List JobInput)
    (prep : BuildPreparation) (updIdx scanIdx : Nat) (res : BuildPreparation × Nat)
    (hres : (scanLoop o buildID inputs prep updIdx scanIdx).2 = some res) :
    ∀ ev ∈ (scanLoop o buildID inputs prep updIdx scanIdx).1, isErrorBuildEv ev = false := by
  induction inputs generalizing prep updIdx scanIdx res with
  | nil =>
    intro ev hev
    simp [scanLoop] at hev
  | cons input rest ih =>
    intro ev hev
    simp only [scanLoop] at hev hres
    cases hupd : o.updatePrep updIdx with
    | some e =>
      rw [hupd] at hres
      simp at hres
    | none =>
      rw [hupd] at hev hres
      cases hscan : o.scanResult scanIdx with
      | some e =>
        rw [hscan] at hres
        simp at hres
      | none =>
        rw [hscan] at hev hres
        cases hupd2 : o.updatePrep (updIdx + 1) with
        | some e =>
          rw [hupd2] at hres
          simp at hres
        | none =>
          rw [hupd2] at hev hres
          simp only [List.mem_cons] at hev
          rcases hev with rfl | rfl | rfl | hev
          · rfl
          · rfl
          · rfl
          · exact ih _ _ _ res hres ev hev

theorem discoverInputs_events_discovery (o : Oracle) (buildID : Nat)
    (versions : Option VersionsDB) (buildInputs : List JobInput) (buildPrep : BuildPreparation) :
    ∀ ev ∈ (discoverInputs o buildID versions buildInputs buildPrep).1, discoveryEv ev = true := by
  intro ev hev
  cases versions with
  | none =>
    simp only [discoverInputs] at hev
    cases hupd : o.updatePrep 0 with
    | some e =>
      rw [hupd] at hev
      simp only [List.mem_singleton] at hev
      subst hev; rfl
    | none =>
      rw [hupd] at hev
      rcases hsl : scanLoop o buildID buildInputs
          { buildPrep with
            inputs := setStatusAll buildPrep.inputs buildInputs .unknown
            inputsSatisfied := .blocking } 1 0 with ⟨devs, r⟩
      rw [hsl] at hev
      have hdevs := scanLoop_events_discovery o buildID buildInputs
        { buildPrep with
          inputs := setStatusAll buildPrep.inputs buildInputs .unknown
          inputsSatisfied := .blocking } 1 0
      rw [hsl] at hdevs
      cases r with
      | none =>
        simp only [List.mem_cons] at hev
        rcases hev with rfl | hev
        · rfl
        · exact hdevs ev hev
      | some x =>
        obtain ⟨prep2, updIdx⟩ := x
        cases hlv : o.loadVersions with
        | mk elv vdb =>
          cases elv with
          | some e =>
            rw [hlv] at hev
            simp only [List.mem_cons, List.mem_append, List.mem_singleton] at hev
            rcases hev with rfl | hev | rfl | hev
            · rfl
            · exact hdevs ev hev
            · rfl
            · simp at hev
          | none =>
            rw [hlv] at hev
            simp only [List.mem_cons, List.mem_append, List.mem_singleton] at hev
            rcases hev with rfl | hev | rfl | hev
            · rfl
            · exact hdevs ev hev
            · rfl
            · simp at hev
  | some vdb =>
    simp only [discoverInputs] at hev
    cases hupd : o.updatePrep 0 with
    | some e =>
      rw [hupd] at hev
      simp only [List.mem_singleton] at hev
      subst hev; rfl
    | none =>
      rw [hupd] at hev
      simp only [List.mem_singleton] at hev
      subst hev; rfl

theorem discoverInputs_success_no_errorBuild (o : Oracle) (buildID : Nat)
    (versions : Option VersionsDB) (buildInputs : List JobInput) (buildPrep : BuildPreparation)
    (res : BuildPreparation × VersionsDB × Nat)
    (hres : (discoverInputs o buildID versions buildInputs buildPrep).2 = some res) :
    ∀ ev ∈ (discoverInputs o buildID versions buildInputs buildPrep).1,
      isErrorBuildEv ev = false := by
  intro ev hev
  cases versions with
  | none =>
    simp only [discoverInputs] at hev hres
    cases hupd : o.updatePrep 0 with
    | some e =>
      rw [hupd] at hres
      simp at hres
    | none =>
      rw [hupd] at hev hres
      rcases hsl : scanLoop o buildID buildInputs
          { buildPrep with
            inputs := setStatusAll buildPrep.inputs buildInputs .unknown
            inputsSatisfied := .blocking } 1 0 with ⟨devs, r⟩
      rw [hsl] at hev hres
      cases r with
      | none => simp at hres
      | some x =>
        obtain ⟨prep2, updIdx⟩ := x
        have hdevs := scanLoop_success_no_errorBuild o buildID buildInputs
          { buildPrep with
            inputs := setStatusAll buildPrep.inputs buildInputs .unknown
            inputsSatisfied := .blocking } 1 0 (prep2, updIdx) (by rw [hsl])
        rw [hsl] at hdevs
        cases hlv : o.loadVersions with
        | mk elv vdb =>
          cases elv with
          | some e =>
            rw [hlv] at hres
            simp at hres
          | none =>
            rw [hlv] at hev
            simp only [List.mem_cons, List.mem_append, List.mem_singleton] at hev
            rcases hev with rfl | hev | rfl | hev
            · rfl
            · exact hdevs ev hev
            · rfl
            · simp at hev
  | some vdb =>
    simp only [discoverInputs] at hev hres
    cases hupd : o.updatePrep 0 with
    | some e =>
      rw [hupd] at hres
      simp at hres
    | none =>
      rw [hupd] at hev
      simp only [List.mem_singleton] at hev
      subst hev; rfl

theorem resolveAndDispatch_events (o : Oracle) (build : Build) (job : JobConfig)
    (buildPrep : BuildPreparation) (updIdx : Nat) :
    ∀ ev ∈ (resolveAndDispatch o build job buildPrep updIdx).1,
      (strictDispatchEv ev || isUpdateEv ev) = true := by
  intro ev hev
  simp only [resolveAndDispatch] at hev
  rcases hG : o.getLatest with ⟨eg, fg, ins⟩
  rw [hG] at hev
  cases eg with
  | some e => simp only [List.mem_singleton] at hev; subst hev; rfl
  | none =>
    cases fg with
    | false => simp only [List.mem_singleton] at hev; subst hev; rfl
    | true =>
      cases hupd : o.updatePrep updIdx with
      | some e =>
        rw [hupd] at hev
        fin_cases hev <;> rfl
      | none =>
        rw [hupd] at hev
        cases huse : o.useInputs with
        | some e =>
          rw [huse] at hev
          fin_cases hev <;> rfl
        | none =>
          rw [huse] at hev
          rcases hF : o.factory with ⟨ef, plan⟩
          rw [hF] at hev
          cases ef with
          | some e => fin_cases hev <;> rfl
          | none =>
            rcases hE : o.engine with ⟨ee, hnd⟩
            rw [hE] at hev
            cases ee with
            | some e => fin_cases hev <;> rfl
            | none =>
              cases hnd with
              | none => fin_cases hev <;> rfl
              | some handle => fin_cases hev <;> rfl

/-- If a trace of the procedure contains a resolve/commit/factory/engine
event, the attempt passed the lease, schedule and preparation-fetch gates and
completed discovery, and the trace splits into the gate events, the discovery
events, the dispatch tail and the deferred lease release. -/
theorem dispatch_reached {o : Oracle} {v : Option VersionsDB} {b : Build} {j : JobConfig}
    {ev : Event} (hev : ev ∈ (scheduleAndResumePendingBuild o v b j).1)
    (hkind : strictDispatchEv ev = true) :
    ∃ devs prep vdb updIdx,
      o.lease = (none, true) ∧ o.schedule = (none, true) ∧
      (∃ p0, o.getPrep = (none, true, p0) ∧
        discoverInputs o b.id v (JobInputs j) p0 = (devs, some (prep, vdb, updIdx))) ∧
      (scheduleAndResumePendingBuild o v b j).1 =
        .leaseBuildScheduling b.id 10 none true ::
          ((.scheduleBuild b.id none true :: .getBuildPreparation b.id none true ::
            (devs ++ (resolveAndDispatch o b j prep updIdx).1)) ++ [.leaseBreak]) ∧
      ev ∈ (resolveAndDispatch o b j prep updIdx).1 ∧
      (scheduleAndResumePendingBuild o v b j).2 = (resolveAndDispatch o b j prep updIdx).2 := by
  rcases hL : o.lease with ⟨el, acq⟩
  cases el with
  | some e =>
    simp only [scheduleAndResumePendingBuild, hL, List.mem_singleton] at hev
    subst hev
    simp [strictDispatchEv] at hkind
  | none =>
    cases acq with
    | false =>
      simp only [scheduleAndResumePendingBuild, hL, List.mem_singleton] at hev
      subst hev
      simp [strictDispatchEv] at hkind
    | true =>
      simp only [scheduleAndResumePendingBuild, hL] at hev
      rcases hS : o.schedule with ⟨es, sch⟩
      cases es with
      | some e =>
        simp only [afterLease, hS, List.mem_cons, List.mem_append, List.mem_singleton,
          List.not_mem_nil, or_false, false_or, or_assoc] at hev
        rcases hev with rfl | rfl | rfl <;> simp [strictDispatchEv] at hkind
      | none =>
        cases sch with
        | false =>
          simp only [afterLease, hS, List.mem_cons, List.mem_append, List.mem_singleton,
            List.not_mem_nil, or_false, false_or, or_assoc] at hev
          rcases hev with rfl | rfl | rfl <;> simp [strictDispatchEv] at hkind
        | true =>
          rcases hP : o.getPrep with ⟨ep, fp, p0⟩
          cases ep with
          | some e =>
            simp only [afterLease, hS, hP, List.mem_cons, List.mem_append, List.mem_singleton,
              List.not_mem_nil, or_false, false_or, or_assoc] at hev
            rcases hev with rfl | rfl | rfl | rfl <;> simp [strictDispatchEv] at hkind
          | none =>
            cases fp with
            | false =>
              simp only [afterLease, hS, hP, List.mem_cons, List.mem_append, List.mem_singleton,
                List.not_mem_nil, or_false, false_or, or_assoc] at hev
              rcases hev with rfl | rfl | rfl | rfl <;> simp [strictDispatchEv] at hkind
            | true =>
              rcases hd : discoverInputs o b.id v (JobInputs j) p0 with ⟨devs, r⟩
              have hdevs := discoverInputs_events_discovery o b.id v (JobInputs j) p0
              rw [hd] at hdevs
              cases r with
              | none =>
                simp only [afterLease, hS, hP, hd, List.mem_cons, List.mem_append,
                  List.mem_singleton, List.not_mem_nil, or_false, false_or, or_assoc] at hev
                rcases hev with rfl | rfl | rfl | hev | rfl
                · simp [strictDispatchEv] at hkind
                · simp [strictDispatchEv] at hkind
                · simp [strictDispatchEv] at hkind
                · have hdisc := discoveryEv_not_strict (hdevs ev hev)
                  rw [hdisc] at hkind
                  exact Bool.noConfusion hkind
                · simp [strictDispatchEv] at hkind
              | some res =>
                obtain ⟨prep, vdb, updIdx⟩ := res
                refine ⟨devs, prep, vdb, updIdx, rfl, rfl, ⟨p0, rfl, hd⟩, ?_, ?_, ?_⟩
                · simp only [scheduleAndResumePendingBuild, hL, afterLease, hS, hP, hd]
                · simp only [afterLease, hS, hP, hd, List.mem_cons, List.mem_append,
                    List.mem_singleton, List.not_mem_nil, or_false, false_or, or_assoc] at hev
                  rcases hev with rfl | rfl | rfl | hev | hev | rfl
                  · simp [strictDispatchEv] at hkind
                  · simp [strictDispatchEv] at hkind
                  · simp [strictDispatchEv] at hkind
                  · have hdisc := discoveryEv_not_strict (hdevs ev hev)
                    rw [hdisc] at hkind
                    exact Bool.noConfusion hkind
                  · exact hev
                  · simp [strictDispatchEv] at hkind
                · simp only [scheduleAndResumePendingBuild, hL, afterLease, hS, hP, hd]

theorem discoveryEv_shape {ev : Event} (h : discoveryEv ev = true) :
    isUseInputsEv ev = false ∧ isFactoryEv ev = false ∧ isEngineEv ev = false ∧
    isResumeEv ev = false ∧ isCreateForCandidateEv ev = false := by
  cases ev <;> simp_all [discoveryEv, isUpdateEv, isScanEv, isErrorBuildEv, isLoadVersionsEv,
    isUseInputsEv, isFactoryEv, isEngineEv, isResumeEv, isCreateForCandidateEv]

/-- Complete case enumeration of the resolve/commit/factory/engine tail: one
disjunct per exit path of lines 302-347 of the source, each giving the oracle
conditions, the exact trace and the return value. -/
theorem resolveAndDispatch_cases (o : Oracle) (b : Build) (j : JobConfig)
    (prep : BuildPreparation) (updIdx : Nat) :
    (∃ e fnd ins, o.getLatest = (some e, fnd, ins) ∧
      resolveAndDispatch o b j prep updIdx =
        ([.getLatestInputVersions j.name (some e) fnd ins], none)) ∨
    (∃ ins, o.getLatest = (none, false, ins) ∧
      resolveAndDispatch o b j prep updIdx =
        ([.getLatestInputVersions j.name none false ins], none)) ∨
    (∃ ins e, o.getLatest = (none, true, ins) ∧ o.updatePrep updIdx = some e ∧
      resolveAndDispatch o b j prep updIdx =
        ([.getLatestInputVersions j.name none true ins,
          .updateBuildPreparation { prep with inputsSatisfied := .notBlocking } (some e)],
          none)) ∨
    (∃ ins e, o.getLatest = (none, true, ins) ∧ o.updatePrep updIdx = none ∧
      o.useInputs = some e ∧
      resolveAndDispatch o b j prep updIdx =
        ([.getLatestInputVersions j.name none true ins,
          .updateBuildPreparation { prep with inputsSatisfied := .notBlocking } none,
          .useInputsForBuild b.id ins (some e)],
          none)) ∨
    (∃ ins e plan, o.getLatest = (none, true, ins) ∧ o.updatePrep updIdx = none ∧
      o.useInputs = none ∧ o.factory = (some e, plan) ∧
      resolveAndDispatch o b j prep updIdx =
        ([.getLatestInputVersions j.name none true ins,
          .updateBuildPreparation { prep with inputsSatisfied := .notBlocking } none,
          .useInputsForBuild b.id ins none,
          .factoryCreate j.name ins (some e),
          .finishBuild b.id .errored o.finishBuildResult],
          none)) ∨
    (∃ ins plan e hnd, o.getLatest = (none, true, ins) ∧ o.updatePrep updIdx = none ∧
      o.useInputs = none ∧ o.factory = (none, plan) ∧ o.engine = (some e, hnd) ∧
      resolveAndDispatch o b j prep updIdx =
        ([.getLatestInputVersions j.name none true ins,
          .updateBuildPreparation { prep with inputsSatisfied := .notBlocking } none,
          .useInputsForBuild b.id ins none,
          .factoryCreate j.name ins none,
          .engineCreateBuild b.id (some e) hnd],
          none)) ∨
    (∃ ins plan, o.getLatest = (none, true, ins) ∧ o.updatePrep updIdx = none ∧
      o.useInputs = none ∧ o.factory = (none, plan) ∧ o.engine = (none, none) ∧
      resolveAndDispatch o b j prep updIdx =
        ([.getLatestInputVersions j.name none true ins,
          .updateBuildPreparation { prep with inputsSatisfied := .notBlocking } none,
          .useInputsForBuild b.id ins none,
          .factoryCreate j.name ins none,
          .engineCreateBuild b.id none none],
          none)) ∨
    (∃ ins plan handle, o.getLatest = (none, true, ins) ∧ o.updatePrep updIdx = none ∧
      o.useInputs = none ∧ o.factory = (none, plan) ∧ o.engine = (none, some handle) ∧
      resolveAndDispatch o b j prep updIdx =
        ([.getLatestInputVersions j.name none true ins,
          .updateBuildPreparation { prep with inputsSatisfied := .notBlocking } none,
          .useInputsForBuild b.id ins none,
          .factoryCreate j.name ins none,
          .engineCreateBuild b.id none (some handle),
          .logBuilding,
          .resume handle],
          some handle)) := by
  rcases hG : o.getLatest with ⟨eg, fg, ins0⟩
  cases eg with
  | some e =>
    exact Or.inl ⟨e, fg, ins0, rfl, by simp [resolveAndDispatch, hG]⟩
  | none =>
    cases fg with
    | false =>
      exact Or.inr (Or.inl ⟨ins0, rfl, by simp [resolveAndDispatch, hG]⟩)
    | true =>
      cases hupd : o.updatePrep updIdx with
      | some e =>
        exact Or.inr (Or.inr (Or.inl ⟨ins0, e, rfl, rfl,
          by simp [resolveAndDispatch, hG, hupd]⟩))
      | none =>
        cases huse : o.useInputs with
        | some e =>
          exact Or.inr (Or.inr (Or.inr (Or.inl ⟨ins0, e, rfl, rfl, rfl,
            by simp [resolveAndDispatch, hG, hupd, huse]⟩)))
        | none =>
          rcases hF : o.factory with ⟨ef, plan⟩
          cases ef with
          | some e =>
            exact Or.inr (Or.inr (Or.inr (Or.inr (Or.inl ⟨ins0, e, plan, rfl, rfl, rfl, rfl,
              by simp [resolveAndDispatch, hG, hupd, huse, hF]⟩))))
          | none =>
            rcases hE : o.engine with ⟨ee, hnd⟩
            cases ee with
            | some e =>
              exact Or.inr (Or.inr (Or.inr (Or.inr (Or.inr (Or.inl
                ⟨ins0, plan, e, hnd, rfl, rfl, rfl, rfl, rfl,
                  by simp [resolveAndDispatch, hG, hupd, huse, hF, hE]⟩)))))
            | none =>
              cases hnd with
              | none =>
                exact Or.inr (Or.inr (Or.inr (Or.inr (Or.inr (Or.inr (Or.inl
                  ⟨ins0, plan, rfl, rfl, rfl, rfl, rfl,
                    by simp [resolveAndDispatch, hG, hupd, huse, hF, hE]⟩))))))
              | some handle =>
                exact Or.inr (Or.inr (Or.inr (Or.inr (Or.inr (Or.inr (Or.inr
                  ⟨ins0, plan, handle, rfl, rfl, rfl, rfl, rfl,
                    by simp [resolveAndDispatch, hG, hupd, huse, hF, hE]⟩))))))


/-- If the dispatch tail records a failed `Factory.Create` call, the tail is
exactly resolve, satisfied-flip, commit, failed factory call, then
`FinishBuild(errored)`, and the attempt returns nothing. -/
theorem resolveAndDispatch_factory_error {o : Oracle} {b : Build} {j : JobConfig}
    {prep : BuildPreparation} {updIdx : Nat} {jn : String} {ins : List BuildInput} {e : Err}
    (hmem : Event.factoryCreate jn ins (some e) ∈ (resolveAndDispatch o b j prep updIdx).1) :
    jn = j.name ∧
    (resolveAndDispatch o b j prep updIdx).1 =
      [.getLatestInputVersions j.name none true ins,
        .updateBuildPreparation { prep with inputsSatisfied := .notBlocking } none,
        .useInputsForBuild b.id ins none,
        .factoryCreate j.name ins (some e),
        .finishBuild b.id .errored o.finishBuildResult] ∧
    (resolveAndDispatch o b j prep updIdx).2 = none := by
  rcases resolveAndDispatch_cases o b j prep updIdx with
    ⟨e2, fnd, ins0, hG, hrad⟩ | ⟨ins0, hG, hrad⟩ | ⟨ins0, e2, hG, hupd, hrad⟩ |
    ⟨ins0, e2, hG, hupd, huse, hrad⟩ | ⟨ins0, e2, plan, hG, hupd, huse, hF, hrad⟩ |
    ⟨ins0, plan, e2, hnd, hG, hupd, huse, hF, hE, hrad⟩ |
    ⟨ins0, plan, hG, hupd, huse, hF, hE, hrad⟩ |
    ⟨ins0, plan, handle, hG, hupd, huse, hF, hE, hrad⟩ <;>
      rw [hrad] at hmem <;> simp only [List.mem_cons, List.not_mem_nil, or_false] at hmem <;>
      [skip; skip; skip; skip; skip; skip; skip; skip] <;> try simp at hmem
  obtain ⟨rfl, rfl, rfl⟩ := by simpa using hmem
  exact ⟨rfl, by rw [hrad], by rw [hrad]⟩

/-- If the dispatch tail records an `Engine.CreateBuild` call, the tail starts
with resolve, satisfied-flip, a commit of some input list `ins`, and a
successful factory call on the same `ins`. -/
theorem resolveAndDispatch_engine_split {o : Oracle} {b : Build} {j : JobConfig}
    {prep : BuildPreparation} {updIdx : Nat} {bid : Nat} {ee : Option Err}
    {hnd : Option EngineBuild}
    (hmem : Event.engineCreateBuild bid ee hnd ∈ (resolveAndDispatch o b j prep updIdx).1) :
    ∃ ins l2,
      (resolveAndDispatch o b j prep updIdx).1 =
        .getLatestInputVersions j.name none true ins ::
          .updateBuildPreparation { prep with inputsSatisfied := .notBlocking } none ::
          .useInputsForBuild b.id ins none :: .factoryCreate j.name ins none :: l2 := by
  rcases resolveAndDispatch_cases o b j prep updIdx with
    ⟨e2, fnd, ins0, hG, hrad⟩ | ⟨ins0, hG, hrad⟩ | ⟨ins0, e2, hG, hupd, hrad⟩ |
    ⟨ins0, e2, hG, hupd, huse, hrad⟩ | ⟨ins0, e2, plan, hG, hupd, huse, hF, hrad⟩ |
    ⟨ins0, plan, e2, hnd2, hG, hupd, huse, hF, hE, hrad⟩ |
    ⟨ins0, plan, hG, hupd, huse, hF, hE, hrad⟩ |
    ⟨ins0, plan, handle, hG, hupd, huse, hF, hE, hrad⟩
  · rw [hrad] at hmem; simp at hmem
  · rw [hrad] at hmem; simp at hmem
  · rw [hrad] at hmem; simp at hmem
  · rw [hrad] at hmem; simp at hmem
  · rw [hrad] at hmem; simp at hmem
  · exact ⟨ins0, [.engineCreateBuild b.id (some e2) hnd2], by rw [hrad]⟩
  · exact ⟨ins0, [.engineCreateBuild b.id none none], by rw [hrad]⟩
  · exact ⟨ins0,
      [.engineCreateBuild b.id none (some handle), .logBuilding, .resume handle], by rw [hrad]⟩

/-- If the dispatch tail records an `Engine.CreateBuild` call that returned a
nil handle and nil error, the tail is exactly the five calls up to the engine
hand-off — no `logBuilding`, no `Resume` — and the attempt returns nothing. -/
theorem resolveAndDispatch_engine_nil {o : Oracle} {b : Build} {j : JobConfig}
    {prep : BuildPreparation} {updIdx : Nat} {bid : Nat}
    (hmem : Event.engineCreateBuild bid none none ∈ (resolveAndDispatch o b j prep updIdx).1) :
    (∃ ins,
      (resolveAndDispatch o b j prep updIdx).1 =
        [.getLatestInputVersions j.name none true ins,
          .updateBuildPreparation { prep with inputsSatisfied := .notBlocking } none,
          .useInputsForBuild b.id ins none,
          .factoryCreate j.name ins none,
          .engineCreateBuild b.id none none]) ∧
    (resolveAndDispatch o b j prep updIdx).2 = none := by
  rcases resolveAndDispatch_cases o b j prep updIdx with
    ⟨e2, fnd, ins0, hG, hrad⟩ | ⟨ins0, hG, hrad⟩ | ⟨ins0, e2, hG, hupd, hrad⟩ |
    ⟨ins0, e2, hG, hupd, huse, hrad⟩ | ⟨ins0, e2, plan, hG, hupd, huse, hF, hrad⟩ |
    ⟨ins0, plan, e2, hnd2, hG, hupd, huse, hF, hE, hrad⟩ |
    ⟨ins0, plan, hG, hupd, huse, hF, hE, hrad⟩ |
    ⟨ins0, plan, handle, hG, hupd, huse, hF, hE, hrad⟩
  · rw [hrad] at hmem; simp at hmem
  · rw [hrad] at hmem; simp at hmem
  · rw [hrad] at hmem; simp at hmem
  · rw [hrad] at hmem; simp at hmem
  · rw [hrad] at hmem; simp at hmem
  · rw [hrad] at hmem; simp at hmem
  · exact ⟨⟨ins0, by rw [hrad]⟩, by rw [hrad]⟩
  · rw [hrad] at hmem; simp at hmem

/-- If the dispatch tail records a `Resume` launch, the engine call succeeded
with that very handle and the attempt returns it. -/
theorem resolveAndDispatch_resume {o : Oracle} {b : Build} {j : JobConfig}
    {prep : BuildPreparation} {updIdx : Nat} {handle : EngineBuild}
    (hmem : Event.resume handle ∈ (resolveAndDispatch o b j prep updIdx).1) :
    Event.engineCreateBuild b.id none (some handle) ∈
      (resolveAndDispatch o b j prep updIdx).1 ∧
    (resolveAndDispatch o b j prep updIdx).2 = some handle := by
  rcases resolveAndDispatch_cases o b j prep updIdx with
    ⟨e2, fnd, ins0, hG, hrad⟩ | ⟨ins0, hG, hrad⟩ | ⟨ins0, e2, hG, hupd, hrad⟩ |
    ⟨ins0, e2, hG, hupd, huse, hrad⟩ | ⟨ins0, e2, plan, hG, hupd, huse, hF, hrad⟩ |
    ⟨ins0, plan, e2, hnd2, hG, hupd, huse, hF, hE, hrad⟩ |
    ⟨ins0, plan, hG, hupd, huse, hF, hE, hrad⟩ |
    ⟨ins0, plan, handle2, hG, hupd, huse, hF, hE, hrad⟩
  · rw [hrad] at hmem; simp at hmem
  · rw [hrad] at hmem; simp at hmem
  · rw [hrad] at hmem; simp at hmem
  · rw [hrad] at hmem; simp at hmem
  · rw [hrad] at hmem; simp at hmem
  · rw [hrad] at hmem; simp at hmem
  · rw [hrad] at hmem; simp at hmem
  · rw [hrad] at hmem
    have h2 : handle = handle2 := by simpa using hmem
    subst h2
    refine ⟨?_, by rw [hrad]⟩
    rw [hrad]
    simp

/-- Lift membership in the dispatch tail to membership in the full trace of
the procedure, given the trace decomposition of `dispatch_reached`. -/
theorem mem_trace_of_mem_dispatch {o : Oracle} {v : Option VersionsDB} {b : Build}
    {j : JobConfig} {devs : List Event} {prep : BuildPreparation} {updIdx : Nat} {ev : Event}
    (htrace : (scheduleAndResumePendingBuild o v b j).1 =
      .leaseBuildScheduling b.id 10 none true ::
        ((.scheduleBuild b.id none true :: .getBuildPreparation b.id none true ::
          (devs ++ (resolveAndDispatch o b j prep updIdx).1)) ++ [.leaseBreak]))
    (hmem : ev ∈ (resolveAndDispatch o b j prep updIdx).1) :
    ev ∈ (scheduleAndResumePendingBuild o v b j).1 := by
  rw [htrace]
  exact List.mem_cons_of_mem _ (List.mem_append_left _ (List.mem_cons_of_mem _
    (List.mem_cons_of_mem _ (List.mem_append_right _ hmem))))

/-- C2: whenever `Factory.Create` returns an error in the scheduling
procedure, `FinishBuild` is called with status errored on that build,
`ErrorBuild` is not called, `Engine.CreateBuild` is not called, and the
procedure exits returning nothing. -/
theorem factory_error_finishBuild (o : Oracle) (v : Option VersionsDB) (b : Build)
    (j : JobConfig) (jn : String) (ins : List BuildInput) (e : Err)
    (hmem : Event.factoryCreate jn ins (some e) ∈ (scheduleAndResumePendingBuild o v b j).1) :
    (∃ er, Event.finishBuild b.id .errored er ∈ (scheduleAndResumePendingBuild o v b j).1) ∧
    (∀ ev ∈ (scheduleAndResumePendingBuild o v b j).1, isErrorBuildEv ev = false) ∧
    (∀ ev ∈ (scheduleAndResumePendingBuild o v b j).1, isEngineEv ev = false) ∧
    (scheduleAndResumePendingBuild o v b j).2 = none := by
  obtain ⟨devs, prep, vdb, updIdx, hL, hS, ⟨p0, hP, hd⟩, htrace, hevd, hres⟩ :=
    dispatch_reached hmem rfl
  obtain ⟨hjn, hdtrace, hdres⟩ := resolveAndDispatch_factory_error hevd
  refine ⟨⟨o.finishBuildResult, ?_⟩, ?_, ?_, ?_⟩
  · refine mem_trace_of_mem_dispatch htrace ?_
    rw [hdtrace]
    simp
  · intro ev hev
    rw [htrace] at hev
    simp only [List.mem_cons, List.mem_append, List.mem_singleton, List.not_mem_nil,
      or_false, false_or, or_assoc] at hev
    rcases hev with rfl | rfl | rfl | hev | hev | rfl
    · rfl
    · rfl
    · rfl
    · exact discoverInputs_success_no_errorBuild o b.id v (JobInputs j) p0 (prep, vdb, updIdx)
        (by rw [hd]) ev (by rw [hd]; exact hev)
    · rw [hdtrace] at hev
      fin_cases hev <;> rfl
    · rfl
  · intro ev hev
    rw [htrace] at hev
    simp only [List.mem_cons, List.mem_append, List.mem_singleton, List.not_mem_nil,
      or_false, false_or, or_assoc] at hev
    rcases hev with rfl | rfl | rfl | hev | hev | rfl
    · rfl
    · rfl
    · rfl
    · exact (discoveryEv_shape (discoverInputs_events_discovery o b.id v (JobInputs j) p0 ev
        (by rw [hd]; exact hev))).2.2.1
    · rw [hdtrace] at hev
      fin_cases hev <;> rfl
    · rfl
  · rw [hres, hdres]

/-- Witness for C2: the cached-versions attempt with a failing plan factory. -/
theorem factory_error_finishBuild_witness :
    (Event.factoryCreate "job" resolvedA (some 3) ∈
      (scheduleAndResumePendingBuild oFactoryFail (some 42) buildB jobA).1) ∧
    ((∃ er, Event.finishBuild buildB.id .errored er ∈
        (scheduleAndResumePendingBuild oFactoryFail (some 42) buildB jobA).1) ∧
      (∀ ev ∈ (scheduleAndResumePendingBuild oFactoryFail (some 42) buildB jobA).1,
        isErrorBuildEv ev = false) ∧
      (∀ ev ∈ (scheduleAndResumePendingBuild oFactoryFail (some 42) buildB jobA).1,
        isEngineEv ev = false) ∧
      (scheduleAndResumePendingBuild oFactoryFail (some 42) buildB jobA).2 = none) :=
  ⟨by decide,
    factory_error_finishBuild oFactoryFail (some 42) buildB jobA "job" resolvedA 3 (by decide)⟩

/-- C1: in every run of the procedure that reaches `Engine.CreateBuild`, the
trace contains a `UseInputsForBuild` commit immediately followed by the
`Factory.Create` call, on the very same input list. -/
theorem input_fidelity (o : Oracle) (v : Option VersionsDB) (b : Build) (j : JobConfig)
    (bid : Nat) (ee : Option Err) (hnd : Option EngineBuild)
    (hmem : Event.engineCreateBuild bid ee hnd ∈ (scheduleAndResumePendingBuild o v b j).1) :
    ∃ ins l1 l2,
      (scheduleAndResumePendingBuild o v b j).1 =
        l1 ++ Event.useInputsForBuild b.id ins none ::
          Event.factoryCreate j.name ins none :: l2 := by
  obtain ⟨devs, prep, vdb, updIdx, hL, hS, ⟨p0, hP, hd⟩, htrace, hevd, hres⟩ :=
    dispatch_reached hmem rfl
  obtain ⟨ins, l2, hdtrace⟩ := resolveAndDispatch_engine_split hevd
  refine ⟨ins,
    .leaseBuildScheduling b.id 10 none true :: .scheduleBuild b.id none true ::
      .getBuildPreparation b.id none true :: (devs ++
        [.getLatestInputVersions j.name none true ins,
          .updateBuildPreparation { prep with inputsSatisfied := .notBlocking } none]),
    l2 ++ [.leaseBreak], ?_⟩
  rw [htrace, hdtrace]
  simp

/-- Witness for C1: the happy-path attempt with cached versions. -/
theorem input_fidelity_witness :
    (Event.engineCreateBuild 7 none (some 9) ∈
      (scheduleAndResumePendingBuild oHappy (some 42) buildB jobA).1) ∧
    (∃ ins l1 l2,
      (scheduleAndResumePendingBuild oHappy (some 42) buildB jobA).1 =
        l1 ++ Event.useInputsForBuild buildB.id ins none ::
          Event.factoryCreate jobA.name ins none :: l2) :=
  ⟨by decide, input_fidelity oHappy (some 42) buildB jobA 7 none (some 9) (by decide)⟩

/-- C10: if `Engine.CreateBuild` returns a nil handle with a nil error the
procedure returns nothing, does not log "building" and does not launch
`Resume`; and `Resume` is launched only on a non-nil handle, which the
procedure also returns. -/
theorem engine_nil_handle (o : Oracle) (v : Option VersionsDB) (b : Build) (j : JobConfig) :
    ((∃ bid, Event.engineCreateBuild bid none none ∈ (scheduleAndResumePendingBuild o v b j).1) →
      (scheduleAndResumePendingBuild o v b j).2 = none ∧
      Event.logBuilding ∉ (scheduleAndResumePendingBuild o v b j).1 ∧
      ∀ h, Event.resume h ∉ (scheduleAndResumePendingBuild o v b j).1) ∧
    (∀ h, Event.resume h ∈ (scheduleAndResumePendingBuild o v b j).1 →
      Event.engineCreateBuild b.id none (some h) ∈ (scheduleAndResumePendingBuild o v b j).1 ∧
      (scheduleAndResumePendingBuild o v b j).2 = some h) := by
  constructor
  · rintro ⟨bid, hmem⟩
    obtain ⟨devs, prep, vdb, updIdx, hL, hS, ⟨p0, hP, hd⟩, htrace, hevd, hres⟩ :=
      dispatch_reached hmem rfl
    obtain ⟨⟨ins, hdtrace⟩, hdres⟩ := resolveAndDispatch_engine_nil hevd
    refine ⟨by rw [hres, hdres], ?_, ?_⟩
    · intro hlb
      rw [htrace] at hlb
      simp only [List.mem_cons, List.mem_append, List.mem_singleton, List.not_mem_nil,
        or_false, false_or, or_assoc] at hlb
      rcases hlb with h | h | h | h | h | h
      · exact Event.noConfusion h
      · exact Event.noConfusion h
      · exact Event.noConfusion h
      · have := discoverInputs_events_discovery o b.id v (JobInputs j) p0 _ (by rw [hd]; exact h)
        exact Bool.noConfusion this
      · rw [hdtrace] at h
        simp at h
      · exact Event.noConfusion h
    · intro hl hlb
      rw [htrace] at hlb
      simp only [List.mem_cons, List.mem_append, List.mem_singleton, List.not_mem_nil,
        or_false, false_or, or_assoc] at hlb
      rcases hlb with h | h | h | h | h | h
      · exact Event.noConfusion h
      · exact Event.noConfusion h
      · exact Event.noConfusion h
      · have := discoverInputs_events_discovery o b.id v (JobInputs j) p0 _ (by rw [hd]; exact h)
        exact Bool.noConfusion this
      · rw [hdtrace] at h
        simp at h
      · exact Event.noConfusion h
  · intro h hmem
    obtain ⟨devs, prep, vdb, updIdx, hL, hS, ⟨p0, hP, hd⟩, htrace, hevd, hres⟩ :=
      dispatch_reached hmem rfl
    obtain ⟨hdmem, hdres⟩ := resolveAndDispatch_resume hevd
    exact ⟨mem_trace_of_mem_dispatch htrace hdmem, by rw [hres, hdres]⟩

/-- Witness for C10: the nil-handle engine result, and the happy path resume. -/
theorem engine_nil_handle_witness :
    ((∃ bid, Event.engineCreateBuild bid none none ∈
        (scheduleAndResumePendingBuild oEngineNil (some 42) buildB jobA).1) ∧
      ((scheduleAndResumePendingBuild oEngineNil (some 42) buildB jobA).2 = none ∧
        Event.logBuilding ∉ (scheduleAndResumePendingBuild oEngineNil (some 42) buildB jobA).1 ∧
        ∀ h, Event.resume h ∉ (scheduleAndResumePendingBuild oEngineNil (some 42) buildB jobA).1)) ∧
    (Event.resume 9 ∈ (scheduleAndResumePendingBuild oHappy (some 42) buildB jobA).1 ∧
      (Event.engineCreateBuild buildB.id none (some 9) ∈
        (scheduleAndResumePendingBuild oHappy (some 42) buildB jobA).1 ∧
      (scheduleAndResumePendingBuild oHappy (some 42) buildB jobA).2 = some 9)) :=
  ⟨⟨⟨7, by decide⟩,
      (engine_nil_handle oEngineNil (some 42) buildB jobA).1 ⟨7, by decide⟩⟩,
    ⟨by decide, (engine_nil_handle oHappy (some 42) buildB jobA).2 9 (by decide)⟩⟩

/-- C4: the procedure first calls `LeaseBuildScheduling` with a 10-second
TTL; on error or when not acquired it returns immediately with no further
store, scanner, factory, or engine calls; and once the lease is acquired
every exit path ends by releasing the lease. -/
theorem lease_protocol (o : Oracle) (v : Option VersionsDB) (b : Build) (j : JobConfig) :
    ((scheduleAndResumePendingBuild o v b j).1.head? =
      some (.leaseBuildScheduling b.id 10 o.lease.1 o.lease.2)) ∧
    (o.lease.1.isSome = true ∨ o.lease.2 = false →
      (scheduleAndResumePendingBuild o v b j).1 =
        [.leaseBuildScheduling b.id 10 o.lease.1 o.lease.2] ∧
      (scheduleAndResumePendingBuild o v b j).2 = none) ∧
    (o.lease = (none, true) →
      ∃ l, (scheduleAndResumePendingBuild o v b j).1 =
        .leaseBuildScheduling b.id 10 none true :: (l ++ [.leaseBreak])) := by
  rcases hL : o.lease with ⟨el, acq⟩
  cases el with
  | some e =>
    exact ⟨by simp [scheduleAndResumePendingBuild, hL],
      fun _ => ⟨by simp [scheduleAndResumePendingBuild, hL],
        by simp [scheduleAndResumePendingBuild, hL]⟩,
      fun hc => by simp at hc⟩
  | none =>
    cases acq with
    | false =>
      exact ⟨by simp [scheduleAndResumePendingBuild, hL],
        fun _ => ⟨by simp [scheduleAndResumePendingBuild, hL],
          by simp [scheduleAndResumePendingBuild, hL]⟩,
        fun hc => by simp at hc⟩
    | true =>
      refine ⟨by simp [scheduleAndResumePendingBuild, hL], ?_, ?_⟩
      · rintro (h | h) <;> simp at h
      · intro _
        exact ⟨(afterLease o v b j).1, by simp [scheduleAndResumePendingBuild, hL]⟩

/-- Witness for C4: a failed lease acquisition, and the happy path release. -/
theorem lease_protocol_witness :
    ((oLeaseFail.lease.1.isSome = true ∨ oLeaseFail.lease.2 = false) ∧
      ((scheduleAndResumePendingBuild oLeaseFail (some 42) buildB jobA).1 =
        [.leaseBuildScheduling buildB.id 10 oLeaseFail.lease.1 oLeaseFail.lease.2] ∧
      (scheduleAndResumePendingBuild oLeaseFail (some 42) buildB jobA).2 = none)) ∧
    (oHappy.lease = (none, true) ∧
      ∃ l, (scheduleAndResumePendingBuild oHappy (some 42) buildB jobA).1 =
        .leaseBuildScheduling buildB.id 10 none true :: (l ++ [.leaseBreak])) :=
  ⟨⟨by decide, (lease_protocol oLeaseFail (some 42) buildB jobA).2.1 (by decide)⟩,
    ⟨by decide, (lease_protocol oHappy (some 42) buildB jobA).2.2 (by decide)⟩⟩

/-- Complete case enumeration of `BuildLatestInputs`: one disjunct per exit
path of lines 68-142 of the source. -/
theorem BuildLatestInputs_cases (o : Oracle) (v : VersionsDB) (j : JobConfig) :
    ((JobInputs j).isEmpty = true ∧ BuildLatestInputs o v j = ([], none)) ∨
    (∃ e fnd ins, (JobInputs j).isEmpty = false ∧ o.blGetLatest = (some e, fnd, ins) ∧
      BuildLatestInputs o v j = ([.getLatestInputVersions j.name (some e) fnd ins], some e)) ∨
    (∃ ins, (JobInputs j).isEmpty = false ∧ o.blGetLatest = (none, false, ins) ∧
      BuildLatestInputs o v j = ([.getLatestInputVersions j.name none false ins], none)) ∨
    (∃ ins, (JobInputs j).isEmpty = false ∧ o.blGetLatest = (none, true, ins) ∧
      (checkedInputs (JobInputs j) ins).isEmpty = true ∧
      BuildLatestInputs o v j = ([.getLatestInputVersions j.name none true ins], none)) ∨
    (∃ ins e fnd bb, (JobInputs j).isEmpty = false ∧ o.blGetLatest = (none, true, ins) ∧
      (checkedInputs (JobInputs j) ins).isEmpty = false ∧ o.getJobBuild = (some e, fnd, bb) ∧
      BuildLatestInputs o v j =
        ([.getLatestInputVersions j.name none true ins,
          .getJobBuildForInputs j.name (checkedInputs (JobInputs j) ins) (some e) fnd],
          some e)) ∨
    (∃ ins bb, (JobInputs j).isEmpty = false ∧ o.blGetLatest = (none, true, ins) ∧
      (checkedInputs (JobInputs j) ins).isEmpty = false ∧ o.getJobBuild = (none, true, bb) ∧
      BuildLatestInputs o v j =
        ([.getLatestInputVersions j.name none true ins,
          .getJobBuildForInputs j.name (checkedInputs (JobInputs j) ins) none true],
          none)) ∨
    (∃ ins bb e2 bb2 crtd, (JobInputs j).isEmpty = false ∧ o.blGetLatest = (none, true, ins) ∧
      (checkedInputs (JobInputs j) ins).isEmpty = false ∧ o.getJobBuild = (none, false, bb) ∧
      o.createForCandidate = (some e2, bb2, crtd) ∧
      BuildLatestInputs o v j =
        ([.getLatestInputVersions j.name none true ins,
          .getJobBuildForInputs j.name (checkedInputs (JobInputs j) ins) none false,
          .createJobBuildForCandidateInputs j.name (some e2) crtd bb2.id],
          some e2)) ∨
    (∃ ins bb bb2, (JobInputs j).isEmpty = false ∧ o.blGetLatest = (none, true, ins) ∧
      (checkedInputs (JobInputs j) ins).isEmpty = false ∧ o.getJobBuild = (none, false, bb) ∧
      o.createForCandidate = (none, bb2, false) ∧
      BuildLatestInputs o v j =
        ([.getLatestInputVersions j.name none true ins,
          .getJobBuildForInputs j.name (checkedInputs (JobInputs j) ins) none false,
          .createJobBuildForCandidateInputs j.name none false bb2.id],
          none)) ∨
    (∃ ins bb bb2, (JobInputs j).isEmpty = false ∧ o.blGetLatest = (none, true, ins) ∧
      (checkedInputs (JobInputs j) ins).isEmpty = false ∧ o.getJobBuild = (none, false, bb) ∧
      o.createForCandidate = (none, bb2, true) ∧
      BuildLatestInputs o v j =
        ([.getLatestInputVersions j.name none true ins,
          .getJobBuildForInputs j.name (checkedInputs (JobInputs j) ins) none false,
          .createJobBuildForCandidateInputs j.name none true bb2.id] ++
          (scheduleAndResumePendingBuild o (some v) bb2 j).1,
          none)) := by
  by_cases hin : (JobInputs j).isEmpty
  · exact Or.inl ⟨hin, by simp [BuildLatestInputs, hin]⟩
  · rcases hBL : o.blGetLatest with ⟨eb, fb, ins⟩
    cases eb with
    | some e =>
      exact Or.inr (Or.inl ⟨e, fb, ins, by simp [hin], rfl,
        by simp [BuildLatestInputs, hin, hBL]⟩)
    | none =>
      cases fb with
      | false =>
        exact Or.inr (Or.inr (Or.inl ⟨ins, by simp [hin], rfl,
          by simp [BuildLatestInputs, hin, hBL]⟩))
      | true =>
        by_cases hchk : (checkedInputs (JobInputs j) ins).isEmpty
        · exact Or.inr (Or.inr (Or.inr (Or.inl ⟨ins, by simp [hin], rfl, hchk,
            by simp [BuildLatestInputs, hin, hBL, hchk]⟩)))
        · rcases hGJ : o.getJobBuild with ⟨eg, fg, bb⟩
          cases eg with
          | some e =>
            exact Or.inr (Or.inr (Or.inr (Or.inr (Or.inl ⟨ins, e, fg, bb, by simp [hin], rfl,
              by simp [hchk], rfl, by simp [BuildLatestInputs, hin, hBL, hchk, hGJ]⟩))))
          | none =>
            cases fg with
            | true =>
              exact Or.inr (Or.inr (Or.inr (Or.inr (Or.inr (Or.inl
                ⟨ins, bb, by simp [hin], rfl, by simp [hchk], rfl,
                  by simp [BuildLatestInputs, hin, hBL, hchk, hGJ]⟩)))))
            | false =>
              rcases hCC : o.createForCandidate with ⟨ec, bb2, crtd⟩
              cases ec with
              | some e2 =>
                exact Or.inr (Or.inr (Or.inr (Or.inr (Or.inr (Or.inr (Or.inl
                  ⟨ins, bb, e2, bb2, crtd, by simp [hin], rfl, by simp [hchk], rfl, rfl,
                    by simp [BuildLatestInputs, hin, hBL, hchk, hGJ, hCC]⟩))))))
              | none =>
                cases crtd with
                | false =>
                  exact Or.inr (Or.inr (Or.inr (Or.inr (Or.inr (Or.inr (Or.inr (Or.inl
                    ⟨ins, bb, bb2, by simp [hin], rfl, by simp [hchk], rfl, rfl,
                      by simp [BuildLatestInputs, hin, hBL, hchk, hGJ, hCC]⟩)))))))
                | true =>
                  exact Or.inr (Or.inr (Or.inr (Or.inr (Or.inr (Or.inr (Or.inr (Or.inr
                    ⟨ins, bb, bb2, by simp [hin], rfl, by simp [hchk], rfl, rfl,
                      by simp [BuildLatestInputs, hin, hBL, hchk, hGJ, hCC]⟩)))))))

theorem strictOrUpdate_not_candidate {ev : Event}
    (h : (strictDispatchEv ev || isUpdateEv ev) = true) :
    isCreateForCandidateEv ev = false := by
  cases ev <;> simp_all [strictDispatchEv, isUpdateEv, isCreateForCandidateEv]

theorem afterLease_no_candidate (o : Oracle) (v : Option VersionsDB) (b : Build)
    (j : JobConfig) :
    ∀ ev ∈ (afterLease o v b j).1, isCreateForCandidateEv ev = false := by
  intro ev hev
  rcases hS : o.schedule with ⟨es, sch⟩
  cases es with
  | some e =>
    simp only [afterLease, hS, List.mem_singleton] at hev
    subst hev; rfl
  | none =>
    cases sch with
    | false =>
      simp only [afterLease, hS, List.mem_singleton] at hev
      subst hev; rfl
    | true =>
      rcases hP : o.getPrep with ⟨ep, fp, p0⟩
      cases ep with
      | some e =>
        simp only [afterLease, hS, hP, List.mem_cons, List.not_mem_nil, or_false] at hev
        rcases hev with rfl | rfl <;> rfl
      | none =>
        cases fp with
        | false =>
          simp only [afterLease, hS, hP, List.mem_cons, List.not_mem_nil, or_false] at hev
          rcases hev with rfl | rfl <;> rfl
        | true =>
          rcases hd : discoverInputs o b.id v (JobInputs j) p0 with ⟨devs, r⟩
          have hdevs := discoverInputs_events_discovery o b.id v (JobInputs j) p0
          rw [hd] at hdevs
          cases r with
          | none =>
            simp only [afterLease, hS, hP, hd, List.mem_cons, List.mem_append] at hev
            rcases hev with rfl | rfl | hev
            · rfl
            · rfl
            · exact (discoveryEv_shape (hdevs ev hev)).2.2.2.2
          | some res =>
            obtain ⟨prep, vdb, updIdx⟩ := res
            simp only [afterLease, hS, hP, hd, List.mem_cons, List.mem_append, or_assoc] at hev
            rcases hev with rfl | rfl | hev | hev
            · rfl
            · rfl
            · exact (discoveryEv_shape (hdevs ev hev)).2.2.2.2
            · exact strictOrUpdate_not_candidate
                (resolveAndDispatch_events o b j prep updIdx ev hev)

theorem scheduleAndResume_no_candidate (o : Oracle) (v : Option VersionsDB) (b : Build)
    (j : JobConfig) :
    ∀ ev ∈ (scheduleAndResumePendingBuild o v b j).1, isCreateForCandidateEv ev = false := by
  intro ev hev
  rcases hL : o.lease with ⟨el, acq⟩
  cases el with
  | some e =>
    simp only [scheduleAndResumePendingBuild, hL, List.mem_singleton] at hev
    subst hev; rfl
  | none =>
    cases acq with
    | false =>
      simp only [scheduleAndResumePendingBuild, hL, List.mem_singleton] at hev
      subst hev; rfl
    | true =>
      simp only [scheduleAndResumePendingBuild, hL, List.mem_cons, List.mem_append,
        List.mem_singleton, List.not_mem_nil, or_false, false_or, or_assoc] at hev
      rcases hev with rfl | hev | rfl
      · rfl
      · exact afterLease_no_candidate o v b j ev hev
      · rfl

/-- C5: if `CreateJobBuildForCandidateInputs` reports created = false,
`BuildLatestInputs` returns nil without running the scheduling procedure:
no Scanner, plan-factory or engine call appears in the trace. -/
theorem candidate_dedup (o : Oracle) (v : VersionsDB) (j : JobConfig) (bid : Nat)
    (hmem : Event.createJobBuildForCandidateInputs j.name none false bid ∈
      (BuildLatestInputs o v j).1) :
    (BuildLatestInputs o v j).2 = none ∧
    (∀ ev ∈ (BuildLatestInputs o v j).1, isScanEv ev = false) ∧
    (∀ ev ∈ (BuildLatestInputs o v j).1, isFactoryEv ev = false) ∧
    (∀ ev ∈ (BuildLatestInputs o v j).1, isEngineEv ev = false) := by
  rcases BuildLatestInputs_cases o v j with
    ⟨hin, hbl⟩ | ⟨e, fnd, ins, hin, hBL, hbl⟩ | ⟨ins, hin, hBL, hbl⟩ |
    ⟨ins, hin, hBL, hchk, hbl⟩ | ⟨ins, e, fnd, bb, hin, hBL, hchk, hGJ, hbl⟩ |
    ⟨ins, bb, hin, hBL, hchk, hGJ, hbl⟩ |
    ⟨ins, bb, e2, bb2, crtd, hin, hBL, hchk, hGJ, hCC, hbl⟩ |
    ⟨ins, bb, bb2, hin, hBL, hchk, hGJ, hCC, hbl⟩ |
    ⟨ins, bb, bb2, hin, hBL, hchk, hGJ, hCC, hbl⟩
  · rw [hbl] at hmem; simp at hmem
  · rw [hbl] at hmem; simp at hmem
  · rw [hbl] at hmem; simp at hmem
  · rw [hbl] at hmem; simp at hmem
  · rw [hbl] at hmem; simp at hmem
  · rw [hbl] at hmem; simp at hmem
  · rw [hbl] at hmem; simp at hmem
  · refine ⟨by rw [hbl], ?_, ?_, ?_⟩ <;> intro ev hev <;> rw [hbl] at hev <;>
      (fin_cases hev <;> rfl)
  · exfalso
    rw [hbl] at hmem
    simp only [List.mem_append, List.mem_cons, List.not_mem_nil, or_false, or_assoc] at hmem
    rcases hmem with h | h | h | h
    · exact Event.noConfusion h
    · exact Event.noConfusion h
    · simp at h
    · have := scheduleAndResume_no_candidate o (some v) bb2 j _ h
      exact Bool.noConfusion this

/-- Witness for C5: another replica already owns the candidate build. -/
theorem candidate_dedup_witness :
    (Event.createJobBuildForCandidateInputs jobA.name none false 7 ∈
      (BuildLatestInputs oNoCreate 42 jobA).1) ∧
    ((BuildLatestInputs oNoCreate 42 jobA).2 = none ∧
      (∀ ev ∈ (BuildLatestInputs oNoCreate 42 jobA).1, isScanEv ev = false) ∧
      (∀ ev ∈ (BuildLatestInputs oNoCreate 42 jobA).1, isFactoryEv ev = false) ∧
      (∀ ev ∈ (BuildLatestInputs oNoCreate 42 jobA).1, isEngineEv ev = false)) :=
  ⟨by decide, candidate_dedup oNoCreate 42 jobA 7 (by decide)⟩

/-- Every preparation snapshot persisted by the scan loop keeps the
`InputsSatisfied` field of the preparation it started from. -/
theorem scanLoop_upd_satisfied (o : Oracle) (buildID : Nat) (inputs : List JobInput)
    (prep : BuildPreparation) (updIdx scanIdx : Nat) :
    ∀ ev ∈ (scanLoop o buildID inputs prep updIdx scanIdx).1, ∀ p er,
      ev = Event.updateBuildPreparation p er → p.inputsSatisfied = prep.inputsSatisfied := by
  induction inputs generalizing prep updIdx scanIdx with
  | nil =>
    intro ev hev
    simp [scanLoop] at hev
  | cons input rest ih =>
    intro ev hev p er hevEq
    subst hevEq
    simp only [scanLoop] at hev
    cases hupd : o.updatePrep updIdx with
    | some e =>
      rw [hupd] at hev
      simp only [List.mem_singleton] at hev
      obtain ⟨rfl, rfl⟩ : p = _ ∧ er = some e := by simpa using hev
      rfl
    | none =>
      rw [hupd] at hev
      cases hscan : o.scanResult scanIdx with
      | some e =>
        rw [hscan] at hev
        simp only [List.mem_cons, List.not_mem_nil, or_false] at hev
        rcases hev with hev | hev | hev
        · obtain ⟨rfl, rfl⟩ : p = _ ∧ er = none := by simpa using hev
          rfl
        · exact absurd hev (by simp)
        · exact absurd hev (by simp)
      | none =>
        rw [hscan] at hev
        cases hupd2 : o.updatePrep (updIdx + 1) with
        | some e =>
          rw [hupd2] at hev
          simp only [List.mem_cons, List.not_mem_nil, or_false] at hev
          rcases hev with hev | hev | hev
          · obtain ⟨rfl, rfl⟩ : p = _ ∧ er = none := by simpa using hev
            rfl
          · exact absurd hev (by simp)
          · obtain ⟨rfl, rfl⟩ : p = _ ∧ er = some e := by simpa using hev
            rfl
        | none =>
          rw [hupd2] at hev
          simp only [List.mem_cons] at hev
          rcases hev with hev | hev | hev | hev
          · obtain ⟨rfl, rfl⟩ : p = _ ∧ er = none := by simpa using hev
            rfl
          · exact absurd hev (by simp)
          · obtain ⟨rfl, rfl⟩ : p = _ ∧ er = none := by simpa using hev
            rfl
          · exact ih _ _ _ _ hev p er rfl

/-- Every preparation snapshot persisted by the discovery phase has
`InputsSatisfied = blocking`: the not-blocking flip happens only at commit. -/
theorem discoverInputs_upd_satisfied (o : Oracle) (buildID : Nat)
    (versions : Option VersionsDB) (buildInputs : List JobInput) (buildPrep : BuildPreparation) :
    ∀ ev ∈ (discoverInputs o buildID versions buildInputs buildPrep).1, ∀ p er,
      ev = Event.updateBuildPreparation p er → p.inputsSatisfied = .blocking := by
  intro ev hev p er hevEq
  subst hevEq
  cases versions with
  | none =>
    simp only [discoverInputs] at hev
    cases hupd : o.updatePrep 0 with
    | some e =>
      rw [hupd] at hev
      simp only [List.mem_singleton] at hev
      obtain ⟨rfl, rfl⟩ : p = _ ∧ er = some e := by simpa using hev
      rfl
    | none =>
      rw [hupd] at hev
      rcases hsl : scanLoop o buildID buildInputs
          { buildPrep with
            inputs := setStatusAll buildPrep.inputs buildInputs .unknown
            inputsSatisfied := .blocking } 1 0 with ⟨devs, r⟩
      rw [hsl] at hev
      have hdevs := scanLoop_upd_satisfied o buildID buildInputs
        { buildPrep with
          inputs := setStatusAll buildPrep.inputs buildInputs .unknown
          inputsSatisfied := .blocking } 1 0
      rw [hsl] at hdevs
      cases r with
      | none =>
        simp only [List.mem_cons] at hev
        rcases hev with hev | hev
        · obtain ⟨rfl, rfl⟩ : p = _ ∧ er = none := by simpa using hev
          rfl
        · exact hdevs _ hev p er rfl
      | some x =>
        obtain ⟨prep2, updIdx⟩ := x
        cases hlv : o.loadVersions with
        | mk elv vdb =>
        cases elv with
        | some e =>
          rw [hlv] at hev
          simp only [List.mem_cons, List.mem_append, List.mem_singleton] at hev
          rcases hev with hev | hev | hev
          · obtain ⟨rfl, rfl⟩ : p = _ ∧ er = none := by simpa using hev
            rfl
          · exact hdevs _ hev p er rfl
          · exact absurd hev (by simp)
        | none =>
          rw [hlv] at hev
          simp only [List.mem_cons, List.mem_append, List.mem_singleton] at hev
          rcases hev with hev | hev | hev
          · obtain ⟨rfl, rfl⟩ : p = _ ∧ er = none := by simpa using hev
            rfl
          · exact hdevs _ hev p er rfl
          · exact absurd hev (by simp)
  | some vdb =>
    simp only [discoverInputs] at hev
    cases hupd : o.updatePrep 0 with
    | some e =>
      rw [hupd] at hev
      simp only [List.mem_singleton] at hev
      obtain ⟨rfl, rfl⟩ : p = _ ∧ er = some e := by simpa using hev
      rfl
    | none =>
      rw [hupd] at hev
      simp only [List.mem_singleton] at hev
      obtain ⟨rfl, rfl⟩ : p = _ ∧ er = none := by simpa using hev
      rfl

/-- C8: in every attempt that commits inputs, the preparation with
`inputs_satisfied = not-blocking` is persisted successfully strictly before
`UseInputsForBuild` is called; and if an attempt's not-blocking persist
fails, `UseInputsForBuild` is never called. -/
theorem satisfied_before_commit (o : Oracle) (v : Option VersionsDB) (b : Build)
    (j : JobConfig) :
    (∀ bid ins er,
      Event.useInputsForBuild bid ins er ∈ (scheduleAndResumePendingBuild o v b j).1 →
      ∃ l1 p l2,
        (scheduleAndResumePendingBuild o v b j).1 =
          l1 ++ Event.updateBuildPreparation p none :: l2 ∧
        p.inputsSatisfied = .notBlocking ∧
        Event.useInputsForBuild bid ins er ∈ l2) ∧
    (∀ p e, p.inputsSatisfied = .notBlocking →
      Event.updateBuildPreparation p (some e) ∈ (scheduleAndResumePendingBuild o v b j).1 →
      ∀ bid ins er,
        Event.useInputsForBuild bid ins er ∉ (scheduleAndResumePendingBuild o v b j).1) := by
  constructor
  · intro bid ins er hmem
    obtain ⟨devs, prep, vdb, updIdx, hL, hS, ⟨p0, hP, hd⟩, htrace, hevd, hres⟩ :=
      dispatch_reached hmem rfl
    rcases resolveAndDispatch_cases o b j prep updIdx with
      ⟨e2, fnd, ins0, hG, hrad⟩ | ⟨ins0, hG, hrad⟩ | ⟨ins0, e2, hG, hupd, hrad⟩ |
      ⟨ins0, e2, hG, hupd, huse, hrad⟩ | ⟨ins0, e2, plan, hG, hupd, huse, hF, hrad⟩ |
      ⟨ins0, plan, e2, hnd2, hG, hupd, huse, hF, hE, hrad⟩ |
      ⟨ins0, plan, hG, hupd, huse, hF, hE, hrad⟩ |
      ⟨ins0, plan, handle, hG, hupd, huse, hF, hE, hrad⟩
    · rw [hrad] at hevd; simp at hevd
    · rw [hrad] at hevd; simp at hevd
    · rw [hrad] at hevd; simp at hevd
    · rw [hrad] at hevd
      obtain ⟨rfl, rfl, rfl⟩ : bid = b.id ∧ ins = ins0 ∧ er = some e2 := by simpa using hevd
      refine ⟨.leaseBuildScheduling b.id 10 none true :: .scheduleBuild b.id none true ::
          .getBuildPreparation b.id none true ::
          (devs ++ [.getLatestInputVersions j.name none true ins]),
        { prep with inputsSatisfied := .notBlocking },
        [.useInputsForBuild b.id ins (some e2)] ++ [.leaseBreak], ?_, rfl, by simp⟩
      rw [htrace, hrad]
      simp
    · rw [hrad] at hevd
      obtain ⟨rfl, rfl, rfl⟩ : bid = b.id ∧ ins = ins0 ∧ er = none := by simpa using hevd
      refine ⟨.leaseBuildScheduling b.id 10 none true :: .scheduleBuild b.id none true ::
          .getBuildPreparation b.id none true ::
          (devs ++ [.getLatestInputVersions j.name none true ins]),
        { prep with inputsSatisfied := .notBlocking },
        [.useInputsForBuild b.id ins none, .factoryCreate j.name ins (some e2),
          .finishBuild b.id .errored o.finishBuildResult] ++ [.leaseBreak], ?_, rfl, by simp⟩
      rw [htrace, hrad]
      simp
    · rw [hrad] at hevd
      obtain ⟨rfl, rfl, rfl⟩ : bid = b.id ∧ ins = ins0 ∧ er = none := by simpa using hevd
      refine ⟨.leaseBuildScheduling b.id 10 none true :: .scheduleBuild b.id none true ::
          .getBuildPreparation b.id none true ::
          (devs ++ [.getLatestInputVersions j.name none true ins]),
        { prep with inputsSatisfied := .notBlocking },
        [.useInputsForBuild b.id ins none, .factoryCreate j.name ins none,
          .engineCreateBuild b.id (some e2) hnd2] ++ [.leaseBreak], ?_, rfl, by simp⟩
      rw [htrace, hrad]
      simp
    · rw [hrad] at hevd
      obtain ⟨rfl, rfl, rfl⟩ : bid = b.id ∧ ins = ins0 ∧ er = none := by simpa using hevd
      refine ⟨.leaseBuildScheduling b.id 10 none true :: .scheduleBuild b.id none true ::
          .getBuildPreparation b.id none true ::
          (devs ++ [.getLatestInputVersions j.name none true ins]),
        { prep with inputsSatisfied := .notBlocking },
        [.useInputsForBuild b.id ins none, .factoryCreate j.name ins none,
          .engineCreateBuild b.id none none] ++ [.leaseBreak], ?_, rfl, by simp⟩
      rw [htrace, hrad]
      simp
    · rw [hrad] at hevd
      obtain ⟨rfl, rfl, rfl⟩ : bid = b.id ∧ ins = ins0 ∧ er = none := by simpa using hevd
      refine ⟨.leaseBuildScheduling b.id 10 none true :: .scheduleBuild b.id none true ::
          .getBuildPreparation b.id none true ::
          (devs ++ [.getLatestInputVersions j.name none true ins]),
        { prep with inputsSatisfied := .notBlocking },
        [.useInputsForBuild b.id ins none, .factoryCreate j.name ins none,
          .engineCreateBuild b.id none (some handle), .logBuilding,
          .resume handle] ++ [.leaseBreak], ?_, rfl, by simp⟩
      rw [htrace, hrad]
      simp
  · intro p e hsat hupd bid ins er hmem
    obtain ⟨devs, prep, vdb, updIdx, hL, hS, ⟨p0, hP, hd⟩, htrace, hevd, hres⟩ :=
      dispatch_reached hmem rfl
    rw [htrace] at hupd
    simp only [List.mem_cons, List.mem_append, List.mem_singleton, List.not_mem_nil,
      or_false, false_or, or_assoc] at hupd
    rcases hupd with h | h | h | h | h | h
    · exact Event.noConfusion h
    · exact Event.noConfusion h
    · exact Event.noConfusion h
    · have := discoverInputs_upd_satisfied o b.id v (JobInputs j) p0 _
        (by rw [hd]; exact h) p (some e) rfl
      rw [hsat] at this
      exact BuildPreparationStatus.noConfusion this
    · rcases resolveAndDispatch_cases o b j prep updIdx with
        ⟨e2, fnd, ins0, hG, hrad⟩ | ⟨ins0, hG, hrad⟩ | ⟨ins0, e2, hG, hupd2, hrad⟩ |
        ⟨ins0, e2, hG, hupd2, huse, hrad⟩ | ⟨ins0, e2, plan, hG, hupd2, huse, hF, hrad⟩ |
        ⟨ins0, plan, e2, hnd2, hG, hupd2, huse, hF, hE, hrad⟩ |
        ⟨ins0, plan, hG, hupd2, huse, hF, hE, hrad⟩ |
        ⟨ins0, plan, handle, hG, hupd2, huse, hF, hE, hrad⟩
      · rw [hrad] at hevd; simp at hevd
      · rw [hrad] at hevd; simp at hevd
      · rw [hrad] at hevd; simp at hevd
      · rw [hrad] at h; simp at h
      · rw [hrad] at h; simp at h
      · rw [hrad] at h; simp at h
      · rw [hrad] at h; simp at h
      · rw [hrad] at h; simp at h
    · exact Event.noConfusion h

/-- Witness for C8: the happy-path commit, and a failing not-blocking
persist that forestalls the commit. -/
theorem satisfied_before_commit_witness :
    ((Event.useInputsForBuild buildB.id resolvedA none ∈
        (scheduleAndResumePendingBuild oHappy (some 42) buildB jobA).1) ∧
      (∃ l1 p l2,
        (scheduleAndResumePendingBuild oHappy (some 42) buildB jobA).1 =
          l1 ++ Event.updateBuildPreparation p none :: l2 ∧
        p.inputsSatisfied = .notBlocking ∧
        Event.useInputsForBuild buildB.id resolvedA none ∈ l2)) ∧
    (({ buildID := 7, pausedPipeline := .notBlocking, pausedJob := .notBlocking,
        maxRunningBuilds := .notBlocking, inputs := [("a", .notBlocking)],
        inputsSatisfied := .notBlocking } : BuildPreparation).inputsSatisfied = .notBlocking ∧
      Event.updateBuildPreparation
          { buildID := 7, pausedPipeline := .notBlocking, pausedJob := .notBlocking,
            maxRunningBuilds := .notBlocking, inputs := [("a", .notBlocking)],
            inputsSatisfied := .notBlocking } (some 6) ∈
        (scheduleAndResumePendingBuild oCommitFail (some 42) buildB jobA).1 ∧
      ∀ bid ins er, Event.useInputsForBuild bid ins er ∉
        (scheduleAndResumePendingBuild oCommitFail (some 42) buildB jobA).1) :=
  ⟨⟨by decide,
      (satisfied_before_commit oHappy (some 42) buildB jobA).1 buildB.id resolvedA none
        (by decide)⟩,
    ⟨by decide, by decide,
      (satisfied_before_commit oCommitFail (some 42) buildB jobA).2
        { buildID := 7, pausedPipeline := .notBlocking, pausedJob := .notBlocking,
          maxRunningBuilds := .notBlocking, inputs := [("a", .notBlocking)],
          inputsSatisfied := .notBlocking } 6 (by decide) (by decide)⟩⟩

/-- A scan failure inside the scan loop aborts the loop and records exactly
one `ErrorBuild` call, with the failing scan's error. -/
theorem scanLoop_scan_error (o : Oracle) (buildID : Nat) (inputs : List JobInput)
    (prep : BuildPreparation) (updIdx scanIdx : Nat) (r : String) (e : Err)
    (evs : List Event) (res : Option (BuildPreparation × Nat))
    (heq : scanLoop o buildID inputs prep updIdx scanIdx = (evs, res))
    (hmem : Event.scan r (some e) ∈ evs) :
    res = none ∧ Event.errorBuild buildID e o.errorBuildResult ∈ evs ∧
    evs.countP isErrorBuildEv = 1 := by
  induction inputs generalizing prep updIdx scanIdx evs res with
  | nil =>
    simp only [scanLoop] at heq
    injection heq with h1 h2
    subst h1
    simp at hmem
  | cons input rest ih =>
    rcases hupd : o.updatePrep updIdx with _ | e2
    · rcases hscan : o.scanResult scanIdx with _ | e2
      · rcases hupd2 : o.updatePrep (updIdx + 1) with _ | e2
        · simp only [scanLoop, hupd, hscan, hupd2] at heq
          injection heq with h1 h2
          subst h1
          subst h2
          simp only [List.mem_cons] at hmem
          rcases hmem with h | h | h | h
          · exact absurd h (by simp)
          · exact absurd h (by simp)
          · exact absurd h (by simp)
          · obtain ⟨h1, h2, h3⟩ := ih _ _ _ _ _ rfl h
            refine ⟨h1, by simp only [List.mem_cons]; exact Or.inr (Or.inr (Or.inr h2)), ?_⟩
            simp [List.countP_cons, isErrorBuildEv, h3]
        · simp only [scanLoop, hupd, hscan, hupd2] at heq
          injection heq with h1 h2
          subst h1
          subst h2
          simp at hmem
      · simp only [scanLoop, hupd, hscan] at heq
        injection heq with h1 h2
        subst h1
        subst h2
        obtain ⟨rfl, rfl⟩ : r = input.resource ∧ e = e2 := by simpa using hmem
        refine ⟨rfl, by simp, ?_⟩
        simp [List.countP_cons, isErrorBuildEv]
    · simp only [scanLoop, hupd] at heq
      injection heq with h1 h2
      subst h1
      subst h2
      simp at hmem

/-- A scan failure during the nil-version-index discovery aborts discovery
and records exactly one `ErrorBuild` call carrying the failing scan's
error. -/
theorem discoverInputs_scan_error (o : Oracle) (buildID : Nat)
    (buildInputs : List JobInput) (buildPrep : BuildPreparation) (r : String) (e : Err)
    (evs : List Event) (res : Option (BuildPreparation × VersionsDB × Nat))
    (heq : discoverInputs o buildID none buildInputs buildPrep = (evs, res))
    (hmem : Event.scan r (some e) ∈ evs) :
    res = none ∧ Event.errorBuild buildID e o.errorBuildResult ∈ evs ∧
    evs.countP isErrorBuildEv = 1 := by
  rcases hupd : o.updatePrep 0 with _ | e2
  · rcases hsl : scanLoop o buildID buildInputs
        { buildPrep with
          inputs := setStatusAll buildPrep.inputs buildInputs .unknown
          inputsSatisfied := .blocking } 1 0 with ⟨slevs, rsl⟩
    cases rsl with
    | none =>
      simp only [discoverInputs, hupd, hsl] at heq
      injection heq with h1 h2
      subst h1
      subst h2
      have hscan : Event.scan r (some e) ∈ slevs := by
        simp only [List.mem_cons] at hmem
        rcases hmem with h | h
        · exact absurd h (by simp)
        · exact h
      obtain ⟨h1, h2, h3⟩ := scanLoop_scan_error o buildID buildInputs
        { buildPrep with
          inputs := setStatusAll buildPrep.inputs buildInputs .unknown
          inputsSatisfied := .blocking } 1 0 r e slevs none hsl hscan
      refine ⟨rfl, by simp only [List.mem_cons]; exact Or.inr h2, ?_⟩
      simp [List.countP_cons, isErrorBuildEv, h3]
    | some res2 =>
      exfalso
      obtain ⟨prep2, updIdx2⟩ := res2
      rcases hlv : o.loadVersions with ⟨elv, vdb⟩
      cases elv with
      | some e3 =>
        simp only [discoverInputs, hupd, hsl, hlv] at heq
        injection heq with h1 h2
        subst h1
        have hscan : Event.scan r (some e) ∈ slevs := by
          simp only [List.mem_cons, List.mem_append, List.mem_singleton] at hmem
          rcases hmem with h | h | h
          · exact absurd h (by simp)
          · exact h
          · exact absurd h (by simp)
        have := (scanLoop_scan_error o buildID buildInputs
          { buildPrep with
            inputs := setStatusAll buildPrep.inputs buildInputs .unknown
            inputsSatisfied := .blocking } 1 0 r e slevs (some (prep2, updIdx2)) hsl hscan).1
        exact Option.noConfusion this
      | none =>
        simp only [discoverInputs, hupd, hsl, hlv] at heq
        injection heq with h1 h2
        subst h1
        have hscan : Event.scan r (some e) ∈ slevs := by
          simp only [List.mem_cons, List.mem_append, List.mem_singleton] at hmem
          rcases hmem with h | h | h
          · exact absurd h (by simp)
          · exact h
          · exact absurd h (by simp)
        have := (scanLoop_scan_error o buildID buildInputs
          { buildPrep with
            inputs := setStatusAll buildPrep.inputs buildInputs .unknown
            inputsSatisfied := .blocking } 1 0 r e slevs (some (prep2, updIdx2)) hsl hscan).1
        exact Option.noConfusion this
  · simp only [discoverInputs, hupd] at heq
    injection heq with h1 h2
    subst h1
    simp at hmem

/-- C3: in the nil-version-index (user-trigger) branch, if `Scanner.Scan`
fails for some input then `ErrorBuild` is called exactly once, with that
build id and that error; `UseInputsForBuild` and `Factory.Create` are never
called; the lease is released and the procedure returns nothing. -/
theorem scan_error_errors_build (o : Oracle) (b : Build) (j : JobConfig) (r : String) (e : Err)
    (hmem : Event.scan r (some e) ∈ (scheduleAndResumePendingBuild o none b j).1) :
    Event.errorBuild b.id e o.errorBuildResult ∈ (scheduleAndResumePendingBuild o none b j).1 ∧
    (scheduleAndResumePendingBuild o none b j).1.countP isErrorBuildEv = 1 ∧
    (∀ ev ∈ (scheduleAndResumePendingBuild o none b j).1, isUseInputsEv ev = false) ∧
    (∀ ev ∈ (scheduleAndResumePendingBuild o none b j).1, isFactoryEv ev = false) ∧
    Event.leaseBreak ∈ (scheduleAndResumePendingBuild o none b j).1 ∧
    (scheduleAndResumePendingBuild o none b j).2 = none := by
  rcases hL : o.lease with ⟨el, acq⟩
  cases el with
  | some e2 =>
    simp only [scheduleAndResumePendingBuild, hL, List.mem_singleton] at hmem
    exact absurd hmem (by simp)
  | none =>
    cases acq with
    | false =>
      simp only [scheduleAndResumePendingBuild, hL, List.mem_singleton] at hmem
      exact absurd hmem (by simp)
    | true =>
      rcases hS : o.schedule with ⟨es, sch⟩
      cases es with
      | some e2 =>
        exfalso
        simp only [scheduleAndResumePendingBuild, hL, afterLease, hS] at hmem
        simp at hmem
      | none =>
        cases sch with
        | false =>
          exfalso
          simp only [scheduleAndResumePendingBuild, hL, afterLease, hS] at hmem
          simp at hmem
        | true =>
          rcases hP : o.getPrep with ⟨ep, fp, p0⟩
          cases ep with
          | some e2 =>
            exfalso
            simp only [scheduleAndResumePendingBuild, hL, afterLease, hS, hP] at hmem
            simp at hmem
          | none =>
            cases fp with
            | false =>
              exfalso
              simp only [scheduleAndResumePendingBuild, hL, afterLease, hS, hP] at hmem
              simp at hmem
            | true =>
              rcases hd : discoverInputs o b.id none (JobInputs j) p0 with ⟨devs, rdisc⟩
              cases rdisc with
              | some res =>
                exfalso
                obtain ⟨prep, vdb, updIdx⟩ := res
                have hfull : (scheduleAndResumePendingBuild o none b j).1 =
                    .leaseBuildScheduling b.id 10 none true ::
                      ((.scheduleBuild b.id none true :: .getBuildPreparation b.id none true ::
                        (devs ++ (resolveAndDispatch o b j prep updIdx).1)) ++ [.leaseBreak]) := by
                  simp only [scheduleAndResumePendingBuild, hL, afterLease, hS, hP, hd]
                rw [hfull] at hmem
                simp only [List.mem_cons, List.mem_append, List.mem_singleton,
                  List.not_mem_nil, or_false, false_or, or_assoc] at hmem
                rcases hmem with h | h | h | h | h | h
                · exact Event.noConfusion h
                · exact Event.noConfusion h
                · exact Event.noConfusion h
                · have := (discoverInputs_scan_error o b.id (JobInputs j) p0 r e devs
                    (some (prep, vdb, updIdx)) hd h).1
                  exact Option.noConfusion this
                · have := resolveAndDispatch_events o b j prep updIdx _ h
                  exact Bool.noConfusion this
                · exact Event.noConfusion h
              | none =>
                have hfull : scheduleAndResumePendingBuild o none b j =
                    (.leaseBuildScheduling b.id 10 none true ::
                      ((.scheduleBuild b.id none true :: .getBuildPreparation b.id none true ::
                        devs) ++ [.leaseBreak]), none) := by
                  simp only [scheduleAndResumePendingBuild, hL, afterLease, hS, hP, hd]
                have hscan : Event.scan r (some e) ∈ devs := by
                  rw [hfull] at hmem
                  simp only [List.mem_cons, List.mem_append, List.mem_singleton,
                    List.not_mem_nil, or_false, false_or, or_assoc] at hmem
                  rcases hmem with h | h | h | h | h
                  · exact absurd h (by simp)
                  · exact absurd h (by simp)
                  · exact absurd h (by simp)
                  · exact h
                  · exact absurd h (by simp)
                obtain ⟨_, h2, h3⟩ := discoverInputs_scan_error o b.id (JobInputs j) p0 r e
                  devs none hd hscan
                rw [hfull]
                refine ⟨?_, ?_, ?_, ?_, by simp, rfl⟩
                · simp only [List.mem_cons]
                  right
                  exact List.mem_append_left _
                    (List.mem_cons_of_mem _ (List.mem_cons_of_mem _ h2))
                · simp [List.countP_cons, List.countP_append, isErrorBuildEv, h3]
                · intro ev hev
                  simp only [List.mem_cons, List.mem_append, List.mem_singleton,
                    List.not_mem_nil, or_false, false_or, or_assoc] at hev
                  rcases hev with rfl | rfl | rfl | hev | rfl
                  · rfl
                  · rfl
                  · rfl
                  · exact (discoveryEv_shape (discoverInputs_events_discovery o b.id none
                      (JobInputs j) p0 ev (by rw [hd]; exact hev))).1
                  · rfl
                · intro ev hev
                  simp only [List.mem_cons, List.mem_append, List.mem_singleton,
                    List.not_mem_nil, or_false, false_or, or_assoc] at hev
                  rcases hev with rfl | rfl | rfl | hev | rfl
                  · rfl
                  · rfl
                  · rfl
                  · exact (discoveryEv_shape (discoverInputs_events_discovery o b.id none
                      (JobInputs j) p0 ev (by rw [hd]; exact hev))).2.1
                  · rfl

/-- Witness for C3: the user-trigger attempt whose only scan fails. -/
theorem scan_error_errors_build_witness :
    (Event.scan "res-a" (some 2) ∈ (scheduleAndResumePendingBuild oScanFail none buildB jobA).1) ∧
    (Event.errorBuild buildB.id 2 oScanFail.errorBuildResult ∈
        (scheduleAndResumePendingBuild oScanFail none buildB jobA).1 ∧
      (scheduleAndResumePendingBuild oScanFail none buildB jobA).1.countP isErrorBuildEv = 1 ∧
      (∀ ev ∈ (scheduleAndResumePendingBuild oScanFail none buildB jobA).1,
        isUseInputsEv ev = false) ∧
      (∀ ev ∈ (scheduleAndResumePendingBuild oScanFail none buildB jobA).1,
        isFactoryEv ev = false) ∧
      Event.leaseBreak ∈ (scheduleAndResumePendingBuild oScanFail none buildB jobA).1 ∧
      (scheduleAndResumePendingBuild oScanFail none buildB jobA).2 = none) :=
  ⟨by decide, scan_error_errors_build oScanFail buildB jobA "res-a" 2 (by decide)⟩

theorem filterMap_scanResource_eq_nil {l : List Event}
    (h : ∀ ev ∈ l, scanResource ev = none) : l.filterMap scanResource = [] := by
  induction l with
  | nil => rfl
  | cons a l ih =>
    simp only [List.filterMap_cons, h a (by simp)]
    exact ih fun ev hev => h ev (by simp [hev])

theorem countP_eq_zero_of {p : Event → Bool} {l : List Event}
    (h : ∀ ev ∈ l, p ev = false) : l.countP p = 0 := by
  induction l with
  | nil => rfl
  | cons a l ih =>
    simp only [List.countP_cons, h a (by simp)]
    simpa using ih fun ev hev => h ev (by simp [hev])

theorem strictOrUpdate_scanResource {ev : Event}
    (h : (strictDispatchEv ev || isUpdateEv ev) = true) : scanResource ev = none := by
  cases ev <;> simp_all [strictDispatchEv, isUpdateEv, scanResource]

theorem strictOrUpdate_not_load {ev : Event}
    (h : (strictDispatchEv ev || isUpdateEv ev) = true) : isLoadVersionsEv ev = false := by
  cases ev <;> simp_all [strictDispatchEv, isUpdateEv, isLoadVersionsEv]

/-- When every update and every scan succeeds, the scan loop completes. -/
theorem scanLoop_happy_success (o : Oracle) (buildID : Nat)
    (hupd : ∀ k, o.updatePrep k = none) (hscan : ∀ i, o.scanResult i = none) :
    ∀ (inputs : List JobInput) (prep : BuildPreparation) (updIdx scanIdx : Nat),
      ∃ p' u', (scanLoop o buildID inputs prep updIdx scanIdx).2 = some (p', u') := by
  intro inputs
  induction inputs with
  | nil => exact fun prep u s => ⟨prep, u, rfl⟩
  | cons input rest ih =>
    intro prep u s
    simp only [scanLoop, hupd u, hscan s, hupd (u + 1)]
    exact ih _ (u + 2) (s + 1)

/-- When every update and every scan succeeds, the scan loop scans exactly
the declared inputs' resources, in declaration order. -/
theorem scanLoop_happy_scans (o : Oracle) (buildID : Nat)
    (hupd : ∀ k, o.updatePrep k = none) (hscan : ∀ i, o.scanResult i = none) :
    ∀ (inputs : List JobInput) (prep : BuildPreparation) (updIdx scanIdx : Nat),
      (scanLoop o buildID inputs prep updIdx scanIdx).1.filterMap scanResource =
        inputs.map (fun i => i.resource) := by
  intro inputs
  induction inputs with
  | nil => intro prep u s; simp [scanLoop]
  | cons input rest ih =>
    intro prep u s
    simp only [scanLoop, hupd u, hscan s, hupd (u + 1)]
    simp only [List.filterMap_cons, scanResource, List.map_cons]
    rw [ih _ (u + 2) (s + 1)]

/-- The scan loop never calls `LoadVersionsDB`. -/
theorem scanLoop_no_load (o : Oracle) (buildID : Nat) :
    ∀ (inputs : List JobInput) (prep : BuildPreparation) (updIdx scanIdx : Nat),
      ∀ ev ∈ (scanLoop o buildID inputs prep updIdx scanIdx).1, isLoadVersionsEv ev = false := by
  intro inputs
  induction inputs with
  | nil =>
    intro prep u s ev hev
    simp [scanLoop] at hev
  | cons input rest ih =>
    intro prep u s ev hev
    simp only [scanLoop] at hev
    cases hupd : o.updatePrep u with
    | some e =>
      rw [hupd] at hev
      simp only [List.mem_singleton] at hev
      subst hev; rfl
    | none =>
      rw [hupd] at hev
      cases hscan : o.scanResult s with
      | some e =>
        rw [hscan] at hev
        fin_cases hev <;> rfl
      | none =>
        rw [hscan] at hev
        cases hupd2 : o.updatePrep (u + 1) with
        | some e =>
          rw [hupd2] at hev
          fin_cases hev <;> rfl
        | none =>
          rw [hupd2] at hev
          simp only [List.mem_cons] at hev
          rcases hev with rfl | rfl | rfl | hev
          · rfl
          · rfl
          · rfl
          · exact ih _ (u + 2) (s + 1) ev hev

/-- One successful iteration of the scan loop: persist blocking, scan,
persist not-blocking, and continue from the persisted preparation. -/
theorem scanLoop_cons_happy (o : Oracle) (buildID : Nat)
    (hupd : ∀ k, o.updatePrep k = none) (hscan : ∀ i, o.scanResult i = none)
    (hd : JobInput) (rest : List JobInput) (prep : BuildPreparation) (u s : Nat) :
    ∃ pB pN,
      scanLoop o buildID (hd :: rest) prep u s =
        (Event.updateBuildPreparation pB none :: Event.scan hd.resource none ::
          Event.updateBuildPreparation pN none ::
            (scanLoop o buildID rest pN (u + 2) (s + 1)).1,
          (scanLoop o buildID rest pN (u + 2) (s + 1)).2) ∧
      mapGet pB.inputs hd.name = some .blocking ∧
      mapGet pN.inputs hd.name = some .notBlocking := by
  refine ⟨{ cloneBuildPrep prep with
      inputs := mapSet (cloneBuildPrep prep).inputs hd.name .blocking },
    { cloneBuildPrep { cloneBuildPrep prep with
          inputs := mapSet (cloneBuildPrep prep).inputs hd.name .blocking } with
      inputs := mapSet (cloneBuildPrep { cloneBuildPrep prep with
          inputs := mapSet (cloneBuildPrep prep).inputs hd.name .blocking }).inputs
        hd.name .notBlocking }, ?_, ?_, ?_⟩
  · simp only [scanLoop, hupd u, hscan s, hupd (u + 1)]
  · simp [mapGet_mapSet]
  · simp [mapGet_mapSet]

/-- When every update and every scan succeeds, each declared input's trace
block is: persist the input as blocking, scan its resource, persist it as
not-blocking — contiguously. -/
theorem scanLoop_happy_blocks (o : Oracle) (buildID : Nat)
    (hupd : ∀ k, o.updatePrep k = none) (hscan : ∀ i, o.scanResult i = none) :
    ∀ (inputs : List JobInput) (prep : BuildPreparation) (updIdx scanIdx : Nat),
      ∀ input ∈ inputs, ∃ pB pN l1 l2,
        (scanLoop o buildID inputs prep updIdx scanIdx).1 =
          l1 ++ [Event.updateBuildPreparation pB none, Event.scan input.resource none,
            Event.updateBuildPreparation pN none] ++ l2 ∧
        mapGet pB.inputs input.name = some .blocking ∧
        mapGet pN.inputs input.name = some .notBlocking := by
  intro inputs
  induction inputs with
  | nil =>
    intro prep u s input h
    simp at h
  | cons hd rest ih =>
    intro prep u s input hin
    obtain ⟨pB0, pN0, hstep, hB0, hN0⟩ := scanLoop_cons_happy o buildID hupd hscan hd rest prep u s
    rcases List.mem_cons.mp hin with rfl | hin
    · refine ⟨pB0, pN0, [], (scanLoop o buildID rest pN0 (u + 2) (s + 1)).1, ?_, hB0, hN0⟩
      rw [hstep]
      rfl
    · obtain ⟨pB, pN, l1, l2, heq, hB, hN⟩ := ih pN0 (u + 2) (s + 1) input hin
      refine ⟨pB, pN, Event.updateBuildPreparation pB0 none :: Event.scan hd.resource none ::
        Event.updateBuildPreparation pN0 none :: l1, l2, ?_, hB, hN⟩
      rw [hstep]
      show Event.updateBuildPreparation pB0 none :: Event.scan hd.resource none ::
        Event.updateBuildPreparation pN0 none ::
          (scanLoop o buildID rest pN0 (u + 2) (s + 1)).1 = _
      rw [heq]
      simp

/-- The dispatch tail always begins with the resolver call. -/
theorem resolveAndDispatch_head (o : Oracle) (b : Build) (j : JobConfig)
    (prep : BuildPreparation) (updIdx : Nat) :
    ∃ e3 fnd ins dtail,
      (resolveAndDispatch o b j prep updIdx).1 =
        .getLatestInputVersions j.name e3 fnd ins :: dtail := by
  rcases resolveAndDispatch_cases o b j prep updIdx with
    ⟨e2, fnd, ins0, hG, hrad⟩ | ⟨ins0, hG, hrad⟩ | ⟨ins0, e2, hG, hupd, hrad⟩ |
    ⟨ins0, e2, hG, hupd, huse, hrad⟩ | ⟨ins0, e2, plan, hG, hupd, huse, hF, hrad⟩ |
    ⟨ins0, plan, e2, hnd2, hG, hupd, huse, hF, hE, hrad⟩ |
    ⟨ins0, plan, hG, hupd, huse, hF, hE, hrad⟩ |
    ⟨ins0, plan, handle, hG, hupd, huse, hF, hE, hrad⟩ <;>
    exact ⟨_, _, _, _, by rw [hrad]⟩

/-- C7: in the nil-version-index branch, with every preparation update and
every scan succeeding, the declared inputs are scanned one at a time in
declaration order; each input's preparation is persisted as blocking
immediately before its scan and as not-blocking immediately after; and
`LoadVersionsDB` is called exactly once, after the last scan and immediately
before the resolver. -/
theorem nil_branch_scan_order (o : Oracle) (b : Build) (j : JobConfig)
    (p0 : BuildPreparation) (vdb : VersionsDB)
    (hL : o.lease = (none, true)) (hS : o.schedule = (none, true))
    (hP : o.getPrep = (none, true, p0))
    (hupd : ∀ k, o.updatePrep k = none) (hscan : ∀ i, o.scanResult i = none)
    (hlv : o.loadVersions = (none, vdb)) :
    (scheduleAndResumePendingBuild o none b j).1.filterMap scanResource =
      (JobInputs j).map (fun i => i.resource) ∧
    (scheduleAndResumePendingBuild o none b j).1.countP isLoadVersionsEv = 1 ∧
    (∃ l1 l2 e3 fnd ins,
      (scheduleAndResumePendingBuild o none b j).1 =
        l1 ++ Event.loadVersionsDB none ::
          Event.getLatestInputVersions j.name e3 fnd ins :: l2 ∧
      ∀ rr er, Event.scan rr er ∉ l2) ∧
    (∀ input ∈ JobInputs j, ∃ pB pN l1 l2,
      (scheduleAndResumePendingBuild o none b j).1 =
        l1 ++ [Event.updateBuildPreparation pB none, Event.scan input.resource none,
          Event.updateBuildPreparation pN none] ++ l2 ∧
      mapGet pB.inputs input.name = some .blocking ∧
      mapGet pN.inputs input.name = some .notBlocking) := by
  rcases hsl : scanLoop o b.id (JobInputs j)
      { p0 with
        inputs := setStatusAll p0.inputs (JobInputs j) .unknown
        inputsSatisfied := .blocking } 1 0 with ⟨slevs, rsl⟩
  obtain ⟨p', u', hsucc⟩ := scanLoop_happy_success o b.id hupd hscan (JobInputs j)
    { p0 with
      inputs := setStatusAll p0.inputs (JobInputs j) .unknown
      inputsSatisfied := .blocking } 1 0
  rw [hsl] at hsucc
  have hrsl : rsl = some (p', u') := hsucc
  subst hrsl
  have hdisc : discoverInputs o b.id none (JobInputs j) p0 =
      (.updateBuildPreparation
        { p0 with
          inputs := setStatusAll p0.inputs (JobInputs j) .unknown
          inputsSatisfied := .blocking } none :: (slevs ++ [.loadVersionsDB none]),
        some (p', vdb, u')) := by
    simp only [discoverInputs, hupd 0, hsl, hlv]
  have hfull : scheduleAndResumePendingBuild o none b j =
      (.leaseBuildScheduling b.id 10 none true ::
        ((.scheduleBuild b.id none true :: .getBuildPreparation b.id none true ::
          ((.updateBuildPreparation
            { p0 with
              inputs := setStatusAll p0.inputs (JobInputs j) .unknown
              inputsSatisfied := .blocking } none :: (slevs ++ [.loadVersionsDB none])) ++
            (resolveAndDispatch o b j p' u').1)) ++ [.leaseBreak]),
        (resolveAndDispatch o b j p' u').2) := by
    simp only [scheduleAndResumePendingBuild, hL, afterLease, hS, hP, hdisc]
  have hscans : slevs.filterMap scanResource = (JobInputs j).map (fun i => i.resource) := by
    have := scanLoop_happy_scans o b.id hupd hscan (JobInputs j)
      { p0 with
        inputs := setStatusAll p0.inputs (JobInputs j) .unknown
        inputsSatisfied := .blocking } 1 0
    rw [hsl] at this
    exact this
  have hnoload : ∀ ev ∈ slevs, isLoadVersionsEv ev = false := by
    have := scanLoop_no_load o b.id (JobInputs j)
      { p0 with
        inputs := setStatusAll p0.inputs (JobInputs j) .unknown
        inputsSatisfied := .blocking } 1 0
    rw [hsl] at this
    exact this
  have hdisp := resolveAndDispatch_events o b j p' u'
  have hdscan : (resolveAndDispatch o b j p' u').1.filterMap scanResource = [] :=
    filterMap_scanResource_eq_nil fun ev hev => strictOrUpdate_scanResource (hdisp ev hev)
  have hdload : (resolveAndDispatch o b j p' u').1.countP isLoadVersionsEv = 0 :=
    countP_eq_zero_of fun ev hev => strictOrUpdate_not_load (hdisp ev hev)
  refine ⟨?_, ?_, ?_, ?_⟩
  · rw [hfull]
    simp [List.filterMap_cons, List.filterMap_append, scanResource, hscans, hdscan]
  · rw [hfull]
    simp [List.countP_cons, List.countP_append, isLoadVersionsEv,
      countP_eq_zero_of hnoload, hdload]
  · obtain ⟨e3, fnd, ins, dtail, hdh⟩ := resolveAndDispatch_head o b j p' u'
    refine ⟨.leaseBuildScheduling b.id 10 none true :: .scheduleBuild b.id none true ::
      .getBuildPreparation b.id none true ::
      .updateBuildPreparation
        { p0 with
          inputs := setStatusAll p0.inputs (JobInputs j) .unknown
          inputsSatisfied := .blocking } none :: slevs,
      dtail ++ [.leaseBreak], e3, fnd, ins, ?_, ?_⟩
    · rw [hfull]
      rw [hdh]
      simp
    · intro rr er hmem2
      rcases List.mem_append.mp hmem2 with h | h
      · have hk : (strictDispatchEv (Event.scan rr er) ||
            isUpdateEv (Event.scan rr er)) = true := by
          apply hdisp
          rw [hdh]
          exact List.mem_cons_of_mem _ h
        exact Bool.noConfusion hk
      · simp at h
  · intro input hin
    have hbl := scanLoop_happy_blocks o b.id hupd hscan (JobInputs j)
      { p0 with
        inputs := setStatusAll p0.inputs (JobInputs j) .unknown
        inputsSatisfied := .blocking } 1 0 input hin
    rw [hsl] at hbl
    obtain ⟨pB, pN, l1, l2, heq, hB, hN⟩ := hbl
    have heq2 : slevs =
        l1 ++ [Event.updateBuildPreparation pB none, Event.scan input.resource none,
          Event.updateBuildPreparation pN none] ++ l2 := heq
    refine ⟨pB, pN, .leaseBuildScheduling b.id 10 none true :: .scheduleBuild b.id none true ::
      .getBuildPreparation b.id none true ::
      .updateBuildPreparation
        { p0 with
          inputs := setStatusAll p0.inputs (JobInputs j) .unknown
          inputsSatisfied := .blocking } none :: l1,
      l2 ++ [.loadVersionsDB none] ++ (resolveAndDispatch o b j p' u').1 ++ [.leaseBreak],
      ?_, hB, hN⟩
    rw [hfull]
    rw [heq2]
    simp

/-- Witness for C7: the happy user-trigger attempt on the one-input job. -/
theorem nil_branch_scan_order_witness :
    (oHappy.lease = (none, true) ∧ oHappy.schedule = (none, true) ∧
      oHappy.getPrep = (none, true, prep0) ∧ (∀ k, oHappy.updatePrep k = none) ∧
      (∀ i, oHappy.scanResult i = none) ∧ oHappy.loadVersions = (none, 42)) ∧
    ((scheduleAndResumePendingBuild oHappy none buildB jobA).1.filterMap scanResource =
      (JobInputs jobA).map (fun i => i.resource) ∧
    (scheduleAndResumePendingBuild oHappy none buildB jobA).1.countP isLoadVersionsEv = 1 ∧
    (∃ l1 l2 e3 fnd ins,
      (scheduleAndResumePendingBuild oHappy none buildB jobA).1 =
        l1 ++ Event.loadVersionsDB none ::
          Event.getLatestInputVersions jobA.name e3 fnd ins :: l2 ∧
      ∀ rr er, Event.scan rr er ∉ l2) ∧
    (∀ input ∈ JobInputs jobA, ∃ pB pN l1 l2,
      (scheduleAndResumePendingBuild oHappy none buildB jobA).1 =
        l1 ++ [Event.updateBuildPreparation pB none, Event.scan input.resource none,
          Event.updateBuildPreparation pN none] ++ l2 ∧
      mapGet pB.inputs input.name = some .blocking ∧
      mapGet pN.inputs input.name = some .notBlocking)) :=
  ⟨⟨rfl, rfl, rfl, fun _ => rfl, fun _ => rfl, rfl⟩,
    nil_branch_scan_order oHappy buildB jobA prep0 42 rfl rfl rfl
      (fun _ => rfl) (fun _ => rfl) rfl⟩

theorem statusLe_refl (v : BuildPreparationStatus) : statusLe v v := Nat.le.refl

/-- Statuses persisted for `x` by the scan loop never move backwards, and on
completion the final preparation still holds the last persisted value. -/
theorem scanLoop_persisted_chain (o : Oracle) (buildID : Nat) (x : String) :
    ∀ (inputs : List JobInput) (prep : BuildPreparation) (updIdx scanIdx : Nat)
      (v : BuildPreparationStatus) (evs : List Event) (res : Option (BuildPreparation × Nat)),
      scanLoop o buildID inputs prep updIdx scanIdx = (evs, res) →
      (inputs.map JobInput.name).Nodup → KeysNodup prep.inputs →
      mapGet prep.inputs x = some v →
      (x ∈ inputs.map JobInput.name → v = .unknown) →
      List.Chain' statusLe (v :: persistedFor x evs) ∧
      (∀ p' u', res = some (p', u') →
        KeysNodup p'.inputs ∧ ∃ w, mapGet p'.inputs x = some w ∧
          List.Chain' statusLe ((v :: persistedFor x evs) ++ [w])) := by
  intro inputs
  induction inputs with
  | nil =>
    intro prep u s v evs res heq hnd hkeys hget hcond
    simp only [scanLoop] at heq
    injection heq with h1 h2
    subst h1
    subst h2
    refine ⟨by simp [persistedFor], ?_⟩
    rintro p' u' h
    injection h with h
    injection h with ha hb
    subst ha
    exact ⟨hkeys, v, hget, by simp [persistedFor, List.chain'_pair, statusLe_refl]⟩
  | cons hd rest ih =>
    intro prep u s v evs res heq hnd hkeys hget hcond
    have hclone1 : cloneBuildPrep prep = prep := cloneBuildPrep_eq_self hkeys
    have hkeysB : KeysNodup (mapSet prep.inputs hd.name .blocking) :=
      keysNodup_mapSet _ _ hkeys
    simp only [scanLoop, hclone1] at heq
    have hgetB : mapGet (mapSet prep.inputs hd.name .blocking) x =
        if x = hd.name then some .blocking else some v := by
      rw [mapGet_mapSet]
      by_cases hx : x = hd.name <;> simp [hx, hget]
    rcases hupd : o.updatePrep u with _ | e2
    · rcases hscn : o.scanResult s with _ | e2
      · have hclone2 : cloneBuildPrep
            { prep with inputs := mapSet prep.inputs hd.name .blocking } =
            { prep with inputs := mapSet prep.inputs hd.name .blocking } :=
          cloneBuildPrep_eq_self hkeysB
        rcases hupd2 : o.updatePrep (u + 1) with _ | e2
        · rw [hupd, hscn, hupd2, hclone2] at heq
          injection heq with h1 h2
          subst h1
          subst h2
          have hkeysN : KeysNodup
              (mapSet (mapSet prep.inputs hd.name .blocking) hd.name .notBlocking) :=
            keysNodup_mapSet _ _ hkeysB
          have hgetN : mapGet
              (mapSet (mapSet prep.inputs hd.name .blocking) hd.name .notBlocking) x =
              if x = hd.name then some .notBlocking else some v := by
            rw [mapGet_mapSet]
            by_cases hx : x = hd.name <;> simp [hx, hgetB]
          simp only [List.map_cons, List.nodup_cons] at hnd
          by_cases hx : x = hd.name
          · have hvU : v = .unknown := hcond (by simp [hx])
            subst hvU
            have hcond' : x ∈ rest.map JobInput.name → BuildPreparationStatus.notBlocking = .unknown := by
              intro hmem
              exact absurd (hx ▸ hmem) hnd.1
            obtain ⟨hchain, hres⟩ := ih { prep with inputs := mapSet (mapSet prep.inputs hd.name .blocking) hd.name .notBlocking } (u + 2) (s + 1) .notBlocking _ _ rfl hnd.2 hkeysN
              (by rw [hgetN, if_pos hx]) hcond'
            constructor
            · simp only [persistedFor, List.filterMap_cons, hgetB, hgetN, if_pos hx]
              rw [List.chain'_cons]
              refine ⟨by decide, ?_⟩
              rw [List.chain'_cons]
              exact ⟨by decide, hchain⟩
            · rintro p' u' hr
              obtain ⟨hk, w, hw, hchain2⟩ := hres p' u' hr
              refine ⟨hk, w, hw, ?_⟩
              simp only [persistedFor, List.filterMap_cons, hgetB, hgetN, if_pos hx] at hchain2 ⊢
              simp only [List.cons_append] at hchain2 ⊢
              rw [List.chain'_cons]
              refine ⟨by decide, ?_⟩
              rw [List.chain'_cons]
              exact ⟨by decide, hchain2⟩
          · have hcond' : x ∈ rest.map JobInput.name → v = .unknown := by
              intro hmem
              exact hcond (by simp [hmem])
            obtain ⟨hchain, hres⟩ := ih { prep with inputs := mapSet (mapSet prep.inputs hd.name .blocking) hd.name .notBlocking } (u + 2) (s + 1) v _ _ rfl hnd.2 hkeysN
              (by rw [hgetN, if_neg hx]) hcond'
            constructor
            · simp only [persistedFor, List.filterMap_cons, hgetB, hgetN, if_neg hx]
              rw [List.chain'_cons]
              refine ⟨statusLe_refl v, ?_⟩
              rw [List.chain'_cons]
              exact ⟨statusLe_refl v, hchain⟩
            · rintro p' u' hr
              obtain ⟨hk, w, hw, hchain2⟩ := hres p' u' hr
              refine ⟨hk, w, hw, ?_⟩
              simp only [persistedFor, List.filterMap_cons, hgetB, hgetN, if_neg hx] at hchain2 ⊢
              simp only [List.cons_append] at hchain2 ⊢
              rw [List.chain'_cons]
              refine ⟨statusLe_refl v, ?_⟩
              rw [List.chain'_cons]
              exact ⟨statusLe_refl v, hchain2⟩
        · rw [hupd, hscn, hupd2, hclone2] at heq
          injection heq with h1 h2
          subst h1
          subst h2
          have hgetN : mapGet
              (mapSet (mapSet prep.inputs hd.name .blocking) hd.name .notBlocking) x =
              if x = hd.name then some .notBlocking else some v := by
            rw [mapGet_mapSet]
            by_cases hx : x = hd.name <;> simp [hx, hgetB]
          refine ⟨?_, by rintro p' u' h; exact Option.noConfusion h⟩
          by_cases hx : x = hd.name
          · have hvU : v = .unknown := hcond (by simp [hx])
            subst hvU
            simp [persistedFor, List.filterMap_cons, hgetB, hgetN, if_pos hx,
              List.chain'_cons, statusLe, statusRank]
          · simp [persistedFor, List.filterMap_cons, hgetB, hgetN, if_neg hx,
              List.chain'_cons, statusLe_refl]
      · rw [hupd, hscn] at heq
        injection heq with h1 h2
        subst h1
        subst h2
        refine ⟨?_, by rintro p' u' h; exact Option.noConfusion h⟩
        by_cases hx : x = hd.name
        · have hvU : v = .unknown := hcond (by simp [hx])
          subst hvU
          simp [persistedFor, List.filterMap_cons, hgetB, if_pos hx,
            List.chain'_cons, statusLe, statusRank]
        · simp [persistedFor, List.filterMap_cons, hgetB, if_neg hx,
            List.chain'_cons, statusLe_refl]
    · rw [hupd] at heq
      injection heq with h1 h2
      subst h1
      subst h2
      refine ⟨?_, by rintro p' u' h; exact Option.noConfusion h⟩
      by_cases hx : x = hd.name
      · have hvU : v = .unknown := hcond (by simp [hx])
        subst hvU
        simp [persistedFor, List.filterMap_cons, hgetB, if_pos hx,
          List.chain'_cons, statusLe, statusRank]
      · simp [persistedFor, List.filterMap_cons, hgetB, if_neg hx,
          List.chain'_cons, statusLe_refl]

theorem persistedFor_append (x : String) (l1 l2 : List Event) :
    persistedFor x (l1 ++ l2) = persistedFor x l1 ++ persistedFor x l2 := by
  simp [persistedFor]

theorem persistedFor_lease (x : String) (bid ttl : Nat) (e : Option Err) (a : Bool)
    (evs : List Event) :
    persistedFor x (Event.leaseBuildScheduling bid ttl e a :: evs) = persistedFor x evs := by
  simp [persistedFor]

theorem persistedFor_schedule (x : String) (bid : Nat) (e : Option Err) (s : Bool)
    (evs : List Event) :
    persistedFor x (Event.scheduleBuild bid e s :: evs) = persistedFor x evs := by
  simp [persistedFor]

theorem persistedFor_getPrep (x : String) (bid : Nat) (e : Option Err) (f : Bool)
    (evs : List Event) :
    persistedFor x (Event.getBuildPreparation bid e f :: evs) = persistedFor x evs := by
  simp [persistedFor]

theorem persistedFor_break (x : String) :
    persistedFor x [Event.leaseBreak] = [] := by
  simp [persistedFor]

/-- In the resolve-and-dispatch phase the only persisted preparation is the
`InputsSatisfied` flip, whose per-input map is unchanged: for any input the
persisted statuses are empty or one repeat of the input's current value. -/
theorem resolveAndDispatch_persisted (o : Oracle) (b : Build) (j : JobConfig)
    (prep : BuildPreparation) (updIdx : Nat) (x : String) :
    persistedFor x (resolveAndDispatch o b j prep updIdx).1 = [] ∨
    ∃ w, mapGet prep.inputs x = some w ∧
      persistedFor x (resolveAndDispatch o b j prep updIdx).1 = [w] := by
  rcases resolveAndDispatch_cases o b j prep updIdx with
    ⟨e, fnd, ins, hG, hrad⟩ | ⟨ins, hG, hrad⟩ | ⟨ins, e, hG, hupd, hrad⟩ |
    ⟨ins, e, hG, hupd, huse, hrad⟩ | ⟨ins, e, plan, hG, hupd, huse, hfac, hrad⟩ |
    ⟨ins, plan, e, hnd, hG, hupd, huse, hfac, heng, hrad⟩ |
    ⟨ins, plan, hG, hupd, huse, hfac, heng, hrad⟩ |
    ⟨ins, plan, handle, hG, hupd, huse, hfac, heng, hrad⟩ <;>
    rw [hrad]
  · exact Or.inl (by simp [persistedFor])
  · exact Or.inl (by simp [persistedFor])
  · rcases hw : mapGet prep.inputs x with _ | w
    · exact Or.inl (by simp [persistedFor, hw])
    · exact Or.inr ⟨w, rfl, by simp [persistedFor, hw]⟩
  · rcases hw : mapGet prep.inputs x with _ | w
    · exact Or.inl (by simp [persistedFor, hw])
    · exact Or.inr ⟨w, rfl, by simp [persistedFor, hw]⟩
  · rcases hw : mapGet prep.inputs x with _ | w
    · exact Or.inl (by simp [persistedFor, hw])
    · exact Or.inr ⟨w, rfl, by simp [persistedFor, hw]⟩
  · rcases hw : mapGet prep.inputs x with _ | w
    · exact Or.inl (by simp [persistedFor, hw])
    · exact Or.inr ⟨w, rfl, by simp [persistedFor, hw]⟩
  · rcases hw : mapGet prep.inputs x with _ | w
    · exact Or.inl (by simp [persistedFor, hw])
    · exact Or.inr ⟨w, rfl, by simp [persistedFor, hw]⟩
  · rcases hw : mapGet prep.inputs x with _ | w
    · exact Or.inl (by simp [persistedFor, hw])
    · exact Or.inr ⟨w, rfl, by simp [persistedFor, hw]⟩

/-- Statuses persisted for a declared input by the discovery phase never move
backwards, and on success the returned preparation holds the last value. -/
theorem discoverInputs_persisted_chain (o : Oracle) (buildID : Nat)
    (versions : Option VersionsDB) (buildInputs : List JobInput)
    (buildPrep : BuildPreparation) (x : String) (evs : List Event)
    (res : Option (BuildPreparation × VersionsDB × Nat))
    (heq : discoverInputs o buildID versions buildInputs buildPrep = (evs, res))
    (hnd : (buildInputs.map JobInput.name).Nodup)
    (hkeys : KeysNodup buildPrep.inputs)
    (hx : x ∈ buildInputs.map JobInput.name) :
    List.Chain' statusLe (persistedFor x evs) ∧
    (∀ p' vdb u', res = some (p', vdb, u') →
      ∃ w, mapGet p'.inputs x = some w ∧
        List.Chain' statusLe (persistedFor x evs ++ [w])) := by
  cases versions with
  | some vdb0 =>
    have hgetNB : mapGet (setStatusAll buildPrep.inputs buildInputs .notBlocking) x =
        some .notBlocking := by
      rw [mapGet_setStatusAll]
      simp [hx]
    rcases hupd : o.updatePrep 0 with _ | e
    · simp only [discoverInputs, hupd] at heq
      injection heq with h1 h2
      subst h1
      subst h2
      refine ⟨by simp [persistedFor, hgetNB], ?_⟩
      rintro p' vdb u' hr
      injection hr with hr
      injection hr with ha hb
      subst ha
      refine ⟨.notBlocking, hgetNB, ?_⟩
      simp [persistedFor, hgetNB, List.chain'_pair, statusLe_refl]
    · simp only [discoverInputs, hupd] at heq
      injection heq with h1 h2
      subst h1
      subst h2
      exact ⟨by simp [persistedFor, hgetNB], by rintro p' vdb u' h; exact Option.noConfusion h⟩
  | none =>
    have hgetU : mapGet (setStatusAll buildPrep.inputs buildInputs .unknown) x =
        some .unknown := by
      rw [mapGet_setStatusAll]
      simp [hx]
    have hkeys1 : KeysNodup (setStatusAll buildPrep.inputs buildInputs .unknown) :=
      keysNodup_setStatusAll buildInputs .unknown hkeys
    rcases hupd : o.updatePrep 0 with _ | e
    · rcases hsl : scanLoop o buildID buildInputs
        { buildPrep with
          inputs := setStatusAll buildPrep.inputs buildInputs .unknown
          inputsSatisfied := .blocking } 1 0 with ⟨slevs, slres⟩
      obtain ⟨hchain, hres⟩ := scanLoop_persisted_chain o buildID x buildInputs
        { buildPrep with
          inputs := setStatusAll buildPrep.inputs buildInputs .unknown
          inputsSatisfied := .blocking } 1 0 .unknown slevs slres hsl hnd hkeys1 hgetU
        (fun _ => rfl)
      cases slres with
      | none =>
        simp only [discoverInputs, hupd, hsl] at heq
        injection heq with h1 h2
        subst h1
        subst h2
        refine ⟨?_, by rintro p' vdb u' h; exact Option.noConfusion h⟩
        simp only [persistedFor, List.filterMap_cons, hgetU] at hchain ⊢
        exact hchain
      | some pu =>
        rcases pu with ⟨prep2, updIdx⟩
        cases hlv : o.loadVersions with
        | mk elv vdb =>
          cases elv with
          | some e =>
            simp only [discoverInputs, hupd, hsl, hlv] at heq
            injection heq with h1 h2
            subst h1
            subst h2
            refine ⟨?_, by rintro p' vdb' u' h; exact Option.noConfusion h⟩
            simp only [persistedFor, List.filterMap_cons, List.filterMap_append, hgetU] at hchain ⊢
            simpa [persistedFor] using hchain
          | none =>
            simp only [discoverInputs, hupd, hsl, hlv] at heq
            injection heq with h1 h2
            subst h1
            subst h2
            obtain ⟨hk, w, hw, hchain2⟩ := hres prep2 updIdx rfl
            constructor
            · simp only [persistedFor, List.filterMap_cons, List.filterMap_append, hgetU]
              simp only [persistedFor, List.filterMap_cons, hgetU] at hchain
              simpa using hchain
            · rintro p' vdb' u' hr
              injection hr with hr
              injection hr with ha hb
              subst ha
              refine ⟨w, hw, ?_⟩
              simp only [persistedFor, List.filterMap_cons, List.filterMap_append, hgetU]
              simp only [persistedFor, List.filterMap_cons, List.cons_append, hgetU] at hchain2
              simpa using hchain2
    · simp only [discoverInputs, hupd] at heq
      injection heq with h1 h2
      subst h1
      subst h2
      exact ⟨by simp [persistedFor, hgetU], by rintro p' vdb u' h; exact Option.noConfusion h⟩

/-- C6, counterexample: with a pre-resolved version index (the cached branch of
lines 228-300), input "a" of the happy-path fixture has persisted status
sequence not-blocking, not-blocking; even collapsing consecutive repeats this
is not a prefix of the chain unknown, blocking, not-blocking, because the
cached branch persists not-blocking directly without ever persisting unknown
or blocking. -/
theorem prep_prefix_counterexample :
    ¬ (collapseRepeats (persistedFor "a"
        (scheduleAndResumePendingBuild oHappy (some 42) buildB jobA).1) <+:
      [BuildPreparationStatus.unknown, .blocking, .notBlocking]) := by
  decide

/-- C6, amended: within one scheduling attempt, for each declared input the
sequence of statuses persisted for that input via `UpdateBuildPreparation`
never moves backwards along the chain unknown, then blocking, then
not-blocking (consecutive persisted statuses are non-decreasing).  The
prefix-of-the-chain form holds only in the nil-version-index branch; the
cached branch persists not-blocking directly.  Hypotheses: the declared input
names are distinct and the fetched preparation's map has distinct keys, as a
Go map guarantees. -/
theorem prep_status_monotonic (o : Oracle) (v : Option VersionsDB) (b : Build)
    (j : JobConfig) (x : String)
    (hnd : ((JobInputs j).map JobInput.name).Nodup)
    (hkeys : KeysNodup (o.getPrep.2.2).inputs)
    (hx : x ∈ (JobInputs j).map JobInput.name) :
    List.Chain' statusLe (persistedFor x (scheduleAndResumePendingBuild o v b j).1) := by
  rcases hL : o.lease with ⟨el, acq⟩
  cases el with
  | some e => simp [scheduleAndResumePendingBuild, hL, persistedFor]
  | none =>
    cases acq with
    | false => simp [scheduleAndResumePendingBuild, hL, persistedFor]
    | true =>
      simp only [scheduleAndResumePendingBuild, hL]
      rw [persistedFor_lease, persistedFor_append, persistedFor_break, List.append_nil]
      rcases hS : o.schedule with ⟨es, sch⟩
      cases es with
      | some e => simp [afterLease, hS, persistedFor]
      | none =>
        cases sch with
        | false => simp [afterLease, hS, persistedFor]
        | true =>
          rcases hP : o.getPrep with ⟨ep, fnd, p0⟩
          rw [hP] at hkeys
          have hkeys' : KeysNodup p0.inputs := hkeys
          cases ep with
          | some e => simp [afterLease, hS, hP, persistedFor]
          | none =>
            cases fnd with
            | false => simp [afterLease, hS, hP, persistedFor]
            | true =>
              rcases hd : discoverInputs o b.id v (JobInputs j) p0 with ⟨devs, dres⟩
              obtain ⟨hchain, hres⟩ := discoverInputs_persisted_chain o b.id v
                (JobInputs j) p0 x devs dres hd hnd hkeys' hx
              cases dres with
              | none =>
                simp only [afterLease, hS, hP, hd]
                rw [persistedFor_schedule, persistedFor_getPrep]
                exact hchain
              | some pvu =>
                rcases pvu with ⟨prep, vdb, updIdx⟩
                obtain ⟨w, hw, hchain2⟩ := hres prep vdb updIdx rfl
                simp only [afterLease, hS, hP, hd]
                rw [persistedFor_schedule, persistedFor_getPrep, persistedFor_append]
                rcases resolveAndDispatch_persisted o b j prep updIdx x with
                  hdp | ⟨w', hw', hdp⟩
                · rw [hdp, List.append_nil]
                  exact (List.chain'_append.mp hchain2).1
                · rw [hw] at hw'
                  injection hw' with hww
                  subst hww
                  rw [hdp]
                  exact hchain2

/-- Witness for the amended C6 theorem at the happy-path fixture with a nil
version index. -/
theorem prep_status_monotonic_witness :
    ((JobInputs jobA).map JobInput.name).Nodup ∧
    KeysNodup (oHappy.getPrep.2.2).inputs ∧
    "a" ∈ (JobInputs jobA).map JobInput.name ∧
    List.Chain' statusLe (persistedFor "a"
      (scheduleAndResumePendingBuild oHappy none buildB jobA).1) :=
  ⟨by decide, by decide, by decide,
    prep_status_monotonic oHappy none buildB jobA "a" (by decide) (by decide) (by decide)⟩

end Scheduler
